import Mathlib

/-!
Verification development for the DNA nanotube generator's double-helix
geometry and junction-assignment engine.

The Python source is shallowly embedded over exact rationals: numpy
`arange` becomes an explicit arithmetic-progression list, Python's `%`
on floats becomes floor-based modulus, `int()` becomes truncation toward
zero, and the mutable juncmate/matching assignment loops become folds
over the same candidate-pair orderings that the source iterates.
-/

namespace Nano

/-- Python's `%` operator on reals: `a % b = a - b * floor (a / b)`
(result has the sign of `b`; matches CPython float semantics for `b ≠ 0`). -/
def pymod (a b : ℚ) : ℚ := a - b * ⌊a / b⌋

/-- Python's `int()` truncation toward zero applied to a rational. -/
def pyint (q : ℚ) : ℤ := Int.tdiv q.num (q.den : ℤ)

/-- Arithmetic progression `[a, a+s, …, a+(n-1)s]`; the common value of
every generated coordinate sequence in the source. -/
def aseq (a s : ℚ) (n : ℕ) : List ℚ :=
  (List.range n).map (fun k : ℕ => a + (k : ℚ) * s)

/-- Element count of `numpy.arange(start, stop, step)`:
`max 0 ⌈(stop - start) / step⌉`. -/
def arangeLen (start stop step : ℚ) : ℕ :=
  (⌈(stop - start) / step⌉).toNat

/-- `numpy.arange(start, stop, step)` over exact rationals. -/
def arange (start stop step : ℚ) : List ℚ :=
  aseq start step (arangeLen start stop step)

/-- Python slice `l[0::2]`: every second element starting at index 0. -/
def everyOther {α : Type} : List α → List α
  | [] => []
  | [a] => [a]
  | a :: _ :: rest => a :: everyOther rest

/-- Python slice `l[1::2]`: every second element starting at index 1.
In the source these are exactly the NEMid positions of a helix's items. -/
def oddItems {α : Type} (l : List α) : List α := everyOther (l.drop 1)

/-- Python slice `l[0::-2]`: starts at index 0 and steps by -2, so it
contains only the element at index 0 (when it exists). -/
def headSlice {α : Type} : List α → List α
  | [] => []
  | a :: _ => [a]

/-- `numpy.argmax` inner loop: carries the best value, its index, and the
index of the next element to examine. Returns the first index of the
maximum. -/
def argmaxAux : List ℚ → ℚ → ℕ → ℕ → ℕ
  | [], _, bi, _ => bi
  | a :: rest, best, bi, i =>
      if best < a then argmaxAux rest a i (i + 1)
      else argmaxAux rest best bi (i + 1)

/-- `numpy.argmax`: index of the first occurrence of the maximum value. -/
def argmax : List ℚ → ℕ
  | [] => 0
  | a :: rest => argmaxAux rest a 0 1

/-- Strand direction (`constants.directions`). -/
inductive Direction : Type
  | UP : Direction
  | DOWN : Direction
deriving DecidableEq, Repr

/-- `helpers.inverse`: the opposite direction. -/
def Direction.inverse : Direction → Direction
  | .UP => .DOWN
  | .DOWN => .UP

/-- Nucleic acid profile constants (`structures.profiles`), consumed by
`DoubleHelices.compute`: twist per base `theta_b`, rise per base `Z_b`,
inter-helix axial offset `Z_mate`, switch angle `g`, bases per turn `B`. -/
structure NucleicAcidProfile : Type where
  theta_b : ℚ
  Z_b : ℚ
  Z_mate : ℚ
  g : ℚ
  B : ℕ
deriving DecidableEq, Repr

/-- A domain's generation counts: half-steps of point generation below,
within, and above the primary span. -/
structure HelixCount : Type where
  bottom_count : ℕ
  body_count : ℕ
  top_count : ℕ
deriving DecidableEq, Repr

/-- A lattice domain: joint directions and the two count records. -/
structure Domain : Type where
  left_helix_joint : Direction
  right_helix_joint : Direction
  left_helix_count : HelixCount
  other_helix_count : HelixCount
deriving DecidableEq, Repr

/-- A helix's coordinate arrays (`Helix.data` in the source). -/
structure HelixData : Type where
  x_coords : List ℚ
  z_coords : List ℚ
  angles : List ℚ
deriving DecidableEq, Repr

/-- `numpy.flip` applied to all three coordinate arrays of a helix
(lines 395-403 of `double_helices.py`, direction normalization of the
down helix). -/
def HelixData.flip (h : HelixData) : HelixData :=
  ⟨h.x_coords.reverse, h.z_coords.reverse, h.angles.reverse⟩

/-- `x_coords_from_angles`: the x coordinate array is the supplied pure
angle-to-x mapping applied pointwise to the angle array. -/
def x_coords_from_angles (x_of : ℚ → Domain → ℚ) (angles : List ℚ)
    (domain : Domain) : List ℚ :=
  angles.map (fun a => x_of a domain)

/-! ## `DoubleHelices.compute` -/

/-- `abs(Z_b * B)`: the interval at which the aligned z coordinate is
reduced (lines 242-244). -/
def decreaseInterval (P : NucleicAcidProfile) : ℚ := |P.Z_b * (P.B : ℚ)|

/-- Lines 229-235: the raw anchor z coordinate taken from the previous
double helix's right-joint helix — `z_coords[1::2]` indexed by the argmax
of `x_coords[1 : B*2+1 : 2]`. -/
def rawAnchor (P : NucleicAcidProfile) (prevRight : HelixData) : ℚ :=
  (oddItems prevRight.z_coords).getD
    (argmax (oddItems (prevRight.x_coords.take (2 * P.B + 1)))) 0

/-- Line 249: the raw anchor reduced modulo the decrease interval. -/
def alignedZFor (P : NucleicAcidProfile) (prevRight : HelixData) : ℚ :=
  pymod (rawAnchor P prevRight) (decreaseInterval P)

/-- Line 265: `initial_z_coord = aligned_z_coord % Z_b`. -/
def initialZsub (P : NucleicAcidProfile) (az : ℚ) : ℚ := pymod az P.Z_b

/-- Line 266: `shifts = int((initial_z_coord - aligned_z_coord) / Z_b)`. -/
def shiftsOf (P : NucleicAcidProfile) (az : ℚ) : ℤ :=
  pyint ((initialZsub P az - az) / P.Z_b)

/-- Line 268: `initial_angle = shifts * theta_b`. -/
def anchorAngleOf (P : NucleicAcidProfile) (az : ℚ) : ℚ :=
  (shiftsOf P az : ℚ) * P.theta_b

/-- Lines 277-282: the zeroed helix's initial z — the sub-step aligned
anchor shifted down by the left bottom count plus half a step. -/
def zeroedInitialZ (P : NucleicAcidProfile) (d : Domain) (az : ℚ) : ℚ :=
  initialZsub P az - (d.left_helix_count.bottom_count : ℚ) * P.Z_b - P.Z_b / 2

/-- Lines 283-288: the zeroed helix's initial angle, reduced mod 360. -/
def zeroedInitialAngle (P : NucleicAcidProfile) (d : Domain) (az : ℚ) : ℚ :=
  pymod (anchorAngleOf P az
    - (d.left_helix_count.bottom_count : ℚ) * P.theta_b - P.theta_b / 2) 360

/-- Lines 293-297: `0.5 + bottom_count + body_count + top_count` for the
zeroed helix. -/
def zeroedIncrements (d : Domain) : ℚ :=
  1 / 2 + (d.left_helix_count.bottom_count : ℚ)
    + (d.left_helix_count.body_count : ℚ) + (d.left_helix_count.top_count : ℚ)

/-- Lines 298-300. -/
def zeroedFinalZ (P : NucleicAcidProfile) (d : Domain) (az : ℚ) : ℚ :=
  zeroedInitialZ P d az + zeroedIncrements d * P.Z_b

/-- Lines 301-303. -/
def zeroedFinalAngle (P : NucleicAcidProfile) (d : Domain) (az : ℚ) : ℚ :=
  zeroedInitialAngle P d az + zeroedIncrements d * P.theta_b

/-- Lines 312-328: the zeroed helix's coordinate arrays. -/
def zeroedHelixData (x_of : ℚ → Domain → ℚ) (P : NucleicAcidProfile)
    (d : Domain) (padding az : ℚ) : HelixData :=
  let angles := arange (zeroedInitialAngle P d az)
    (zeroedFinalAngle P d az + padding) (P.theta_b / 2)
  { x_coords := x_coords_from_angles x_of angles d
    z_coords := arange (zeroedInitialZ P d az)
      (zeroedFinalZ P d az + padding) (P.Z_b / 2)
    angles := angles }

/-- Modelled from the spec: the `DoubleHelix` class is not under `src/`.
Per §3 a DoubleHelix owns one helix per direction, the zeroed helix being
the one pinned to the previous domain's output; the source comment
(lines 307-310) identifies the zeroed helix as the domain's left-joint
helix, so the other helix has the inverse of the left joint direction. -/
def otherDirection (d : Domain) : Direction := d.left_helix_joint.inverse

/-- Line 337: `modifier = -1 if other_helix.direction == DOWN else 1`. -/
def modifierOf (d : Domain) : ℚ :=
  if otherDirection d = Direction.DOWN then -1 else 1

/-- Lines 344-351: the other helix's initial angle (aligned angle is 0). -/
def otherInitialAngle (P : NucleicAcidProfile) (d : Domain) (az : ℚ) : ℚ :=
  0 + (shiftsOf P az : ℚ) * P.theta_b + (-(modifierOf d)) * P.g
    - (d.other_helix_count.bottom_count : ℚ) * P.theta_b - P.theta_b / 2

/-- Lines 352-358: the other helix's initial z coordinate. -/
def otherInitialZ (P : NucleicAcidProfile) (d : Domain) (az : ℚ) : ℚ :=
  az + (shiftsOf P az : ℚ) * P.Z_b + (-(modifierOf d)) * P.Z_mate
    - (d.other_helix_count.bottom_count : ℚ) * P.Z_b - P.Z_b / 2

/-- Lines 361-365: `0.5 + bottom + body + top` for the other helix. -/
def otherIncrements (d : Domain) : ℚ :=
  1 / 2 + (d.other_helix_count.bottom_count : ℚ)
    + (d.other_helix_count.body_count : ℚ) + (d.other_helix_count.top_count : ℚ)

/-- Lines 366-370. -/
def otherFinalAngle (P : NucleicAcidProfile) (d : Domain) (az : ℚ) : ℚ :=
  otherInitialAngle P d az + otherIncrements d * P.theta_b

/-- Lines 371-375. -/
def otherFinalZ (P : NucleicAcidProfile) (d : Domain) (az : ℚ) : ℚ :=
  otherInitialZ P d az + otherIncrements d * P.Z_b

/-- Lines 378-390: the other helix's coordinate arrays. -/
def otherHelixData (x_of : ℚ → Domain → ℚ) (P : NucleicAcidProfile)
    (d : Domain) (padding az : ℚ) : HelixData :=
  let angles := arange (otherInitialAngle P d az)
    (otherFinalAngle P d az + padding) (P.theta_b / 2)
  { x_coords := x_coords_from_angles x_of angles d
    z_coords := arange (otherInitialZ P d az)
      (otherFinalZ P d az + padding) (P.Z_b / 2)
    angles := angles }

/-- The per-domain result of one iteration of `compute`: the final
(direction-normalized) up and down helix data, together with the
intermediate anchor observables of that iteration. -/
structure DHResult : Type where
  domain : Domain
  alignedZ : ℚ
  initialZ : ℚ
  shifts : ℤ
  anchorAngle : ℚ
  upH : HelixData
  downH : HelixData
deriving DecidableEq, Repr

/-- The right-joint helix of a computed double helix (`right_helix`).
Modelled from the spec: helices are tagged by direction, and the right
helix is the one whose direction is the domain's right joint. -/
def DHResult.rightHelix (r : DHResult) : HelixData :=
  if r.domain.right_helix_joint = Direction.UP then r.upH else r.downH

/-- One iteration of the `compute` loop for a domain with aligned z
coordinate `az`: generate the zeroed and other helices, assign them to
the up/down slots by the left joint direction, and flip the down helix. -/
def computeDH (x_of : ℚ → Domain → ℚ) (P : NucleicAcidProfile) (d : Domain)
    (padding az : ℚ) : DHResult :=
  let zeroed := zeroedHelixData x_of P d padding az
  let other := otherHelixData x_of P d padding az
  let upRaw := if d.left_helix_joint = Direction.UP then zeroed else other
  let downRaw := if d.left_helix_joint = Direction.UP then other else zeroed
  { domain := d
    alignedZ := az
    initialZ := initialZsub P az
    shifts := shiftsOf P az
    anchorAngle := anchorAngleOf P az
    upH := upRaw
    downH := downRaw.flip }

/-- The tail of the `compute` loop: each domain's aligned z coordinate is
derived from the previous iteration's (already direction-normalized)
right-joint helix. -/
def computeAux (x_of : ℚ → Domain → ℚ) (P : NucleicAcidProfile)
    (padding : ℚ) : DHResult → List Domain → List DHResult
  | _, [] => []
  | prev, d :: rest =>
      let r := computeDH x_of P d padding (alignedZFor P prev.rightHelix)
      r :: computeAux x_of P padding r rest

/-- `DoubleHelices.compute(padding)`: the first domain's aligned z
coordinate is 0 (line 217); every later domain is anchored to its
predecessor's output. -/
def compute (x_of : ℚ → Domain → ℚ) (P : NucleicAcidProfile)
    (ds : List Domain) (padding : ℚ) : List DHResult :=
  match ds with
  | [] => []
  | d :: rest =>
      let r0 := computeDH x_of P d padding 0
      r0 :: computeAux x_of P padding r0 rest

/-! ## `DoubleHelices.strands` — matching assignment -/

/-- Lines 179-185: the pair list over which `matching` is assigned —
`zip(double_helix[UP].items[0::2], double_helix[DOWN].items[0::-2])`. -/
def matchingPairs {α : Type} (up down : List α) : List (α × α) :=
  (everyOther up).zip (headSlice down)

/-- Definition following the spec's words for claim C2 (to be compared
with `matchingPairs`): the UP helix's NEMid-only points paired
one-to-one, by position, with the DOWN helix's NEMid-only points taken
in reverse order. -/
def matchingPairsSpec {α : Type} (up down : List α) : List (α × α) :=
  (oddItems up).zip (oddItems down).reverse

/-- An item of one of a double helix's two strands, named by
(`true` = UP strand, `false` = DOWN strand) and item index. -/
abbrev MatchId : Type := Bool × ℕ

/-- The matching pass run on one double helix whose strands have
`upLen` and `downLen` items: every zipped pair has `matching` set
symmetrically on both members (lines 180-185). -/
def runMatching (upLen downLen : ℕ) : MatchId → Option MatchId :=
  (matchingPairs (List.range upLen) (List.range downLen)).foldl
    (fun m pr q =>
      if q = (true, pr.1) then some (false, pr.2)
      else if q = (false, pr.2) then some (true, pr.1)
      else m q)
    (fun _ => none)

/-! ## `DoubleHelices.strands` — junction detection -/

/-- A point's planar position `(x_coord, z_coord)`. -/
abbrev Pt : Type := ℚ × ℚ

/-- A point's identity: (double helix index, 0 = up helix / 1 = down
helix, item index within the strand). -/
abbrev PtId : Type := ℕ × ℕ × ℕ

/-- The computed geometry handed to the junction pass: per double helix,
the item positions of its up strand and of its down strand. -/
abbrev Config : Type := List (List Pt × List Pt)

/-- The items of helix `h` (0 = up, 1 = down) of double helix `dh`. -/
def helixAt (c : Config) (dh h : ℕ) : List Pt :=
  if h = 0 then (c.getD dh ([], [])).1 else (c.getD dh ([], [])).2

/-- Position lookup by point identity. -/
def ptAt (c : Config) (id : PtId) : Pt :=
  (helixAt c id.1 id.2.1).getD id.2.2 (0, 0)

/-- Indices of the `items[1::2]` elements of a strand — the NEMids. -/
def nemidIdxList {α : Type} (l : List α) : List ℕ :=
  (List.range l.length).filter (fun k => k % 2 = 1)

/-- Lines 145-158: the ordered candidate pairs of the junction pass —
for each double helix and its cyclic successor, every (helix1, helix2)
pair and every (NEMid1, NEMid2) pair, in source iteration order. -/
def candidatePairs (c : Config) : List (PtId × PtId) :=
  (List.range c.length).flatMap fun idx =>
    let nxt := if idx = c.length - 1 then 0 else idx + 1
    [0, 1].flatMap fun h1 =>
      [0, 1].flatMap fun h2 =>
        (nemidIdxList (helixAt c idx h1)).flatMap fun i1 =>
          (nemidIdxList (helixAt c nxt h2)).map fun i2 =>
            ((idx, h1, i1), (nxt, h2, i2))

/-- Modelled from the spec: `Point.overlaps` is not under `src/`. Per
§4.3 two points overlap when their positions coincide within a tolerance
once x is taken modulo the width (the total domain count). -/
def overlapsSpec (tol width : ℚ) (p q : Pt) : Bool :=
  decide (|pymod p.1 width - pymod q.1 width| ≤ tol ∧ |p.2 - q.2| ≤ tol)

/-- Line 167: the fractional-x pre-filter
`point1.x_coord % 1 == point2.x_coord % 1`. -/
def fracFilter (p q : Pt) : Bool := decide (pymod p.1 1 = pymod q.1 1)

/-- The mutable per-NEMid state written by the junction pass. -/
structure JuncState : Type where
  juncmate : PtId → Option PtId
  junctable : PtId → Bool

/-- Lines 167-172: one candidate pair's processing — pre-filter, then
full overlap test, then symmetric assignment of
`junctable`/`juncmate`. -/
def juncStep (tol width : ℚ) (c : Config) (st : JuncState)
    (pr : PtId × PtId) : JuncState :=
  let p1 := ptAt c pr.1
  let p2 := ptAt c pr.2
  if fracFilter p1 p2 && overlapsSpec tol width p1 p2 then
    { juncmate := fun r =>
        if r = pr.1 then some pr.2
        else if r = pr.2 then some pr.1
        else st.juncmate r
      junctable := fun r =>
        if r = pr.1 ∨ r = pr.2 then true else st.junctable r }
  else st

/-- One candidate pair's processing with the pre-filter removed: the
full overlap test decides alone. The reference pass claim C8 compares
against. -/
def juncStepFull (tol width : ℚ) (c : Config) (st : JuncState)
    (pr : PtId × PtId) : JuncState :=
  let p1 := ptAt c pr.1
  let p2 := ptAt c pr.2
  if overlapsSpec tol width p1 p2 then
    { juncmate := fun r =>
        if r = pr.1 then some pr.2
        else if r = pr.2 then some pr.1
        else st.juncmate r
      junctable := fun r =>
        if r = pr.1 ∨ r = pr.2 then true else st.junctable r }
  else st

/-- The empty junction state: no juncmates, nothing junctable. -/
def initialJuncState : JuncState := ⟨fun _ => none, fun _ => false⟩

/-- The pre-filtered junction pass as the source runs it. -/
def runJunc (tol width : ℚ) (c : Config) : JuncState :=
  (candidatePairs c).foldl (juncStep tol width c) initialJuncState

/-- The unfiltered junction pass: the full overlap test on every
candidate pair. -/
def runJuncFull (tol width : ℚ) (c : Config) : JuncState :=
  (candidatePairs c).foldl (juncStepFull tol width c) initialJuncState

/-- The junction pass with the width the source passes:
`width=self.domains.count`, the number of domains. -/
def strandsJunc (tol : ℚ) (c : Config) : JuncState :=
  runJunc tol (c.length : ℚ) c

/-- The unfiltered junction pass at the source's width. -/
def strandsJuncFull (tol : ℚ) (c : Config) : JuncState :=
  runJuncFull tol (c.length : ℚ) c

/-! ## `Strand._generate` -/

/-- Extension direction of `Strand._generate`. -/
inductive GenDir : Type
  | RIGHT : GenDir
  | LEFT : GenDir
deriving DecidableEq, Repr

/-- Lines 218-223: `modifier = 1` for RIGHT, `-1` for LEFT. -/
def genModifier : GenDir → ℚ
  | .RIGHT => 1
  | .LEFT => -1

/-- Lines 236-246: the generated angle array — from the edge item's
angle plus half a step, by half-steps, toward the exclusive bound. -/
def generatedAngles (P : NucleicAcidProfile) (edgeAngle : ℚ) (count : ℕ)
    (m : ℚ) : List ℚ :=
  arange (edgeAngle + P.theta_b / 2 * m)
    (edgeAngle + P.theta_b / 2 * m + ((count : ℚ) + 1) * (P.theta_b * m))
    (m * (P.theta_b / 2))

/-- Lines 237, 256-260: the generated z coordinate array. -/
def generatedZ (P : NucleicAcidProfile) (edgeZ : ℚ) (count : ℕ)
    (m : ℚ) : List ℚ :=
  arange (edgeZ + P.Z_b / 2 * m)
    (edgeZ + P.Z_b / 2 * m + ((count : ℚ) + 1) * (P.Z_b * m))
    (m * (P.Z_b / 2))

/-- The three truncated coordinate arrays produced by `_generate`. -/
structure GenResult : Type where
  angles : List ℚ
  x_coords : List ℚ
  z_coords : List ℚ
deriving DecidableEq, Repr

/-- Lines 236-266 of `strand.py`: generate angles, derive x from them,
generate z, then truncate all three arrays to the shortest length. -/
def generateData (x_of : ℚ → Domain → ℚ) (P : NucleicAcidProfile)
    (d : Domain) (edgeAngle edgeZ : ℚ) (count : ℕ) (gd : GenDir) :
    GenResult :=
  let m := genModifier gd
  let angles := generatedAngles P edgeAngle count m
  let x_coords := angles.map (fun a => x_of a d)
  let z_coords := generatedZ P edgeZ count m
  let g := min (min angles.length x_coords.length) z_coords.length
  ⟨angles.take g, x_coords.take g, z_coords.take g⟩

/-- Lines 276-279: RIGHT extension appends the new items on the right;
LEFT extension prepends with `deque.extendleft`, which reverses the
iterable it consumes. Stated on a single coordinate sequence. -/
def spliced (gd : GenDir) (old new : List ℚ) : List ℚ :=
  match gd with
  | .RIGHT => old ++ new
  | .LEFT => new.reverse ++ old

/-! ## `Strand.sequence` setter -/

/-- A DNA base. -/
inductive Base : Type
  | A : Base
  | T : Base
  | C : Base
  | G : Base
deriving DecidableEq, Repr

/-- Modelled from the spec: `Nucleoside.complement` is not under `src/`.
Per §3 it returns the Watson-Crick partner of the base. -/
def complementB : Option Base → Option Base
  | some .A => some .T
  | some .T => some .A
  | some .C => some .G
  | some .G => some .C
  | none => none

/-- Modelled from the spec: the `Nucleoside` point type is not under
`src/`. Per §3 it carries a base letter and a `matching()` lookup to its
paired Nucleoside, represented here as an index into a shared pool. -/
structure Nuc : Type where
  base : Option Base
  matching : Option ℕ
deriving DecidableEq, Repr

/-- Overwrite the base of the pool's `i`-th nucleoside (all other fields
and cells unchanged; out-of-range writes are no-ops). -/
def setBaseAt (pool : List Nuc) (i : ℕ) (b : Option Base) : List Nuc :=
  match pool.get? i with
  | some nuc => pool.set i { nuc with base := b }
  | none => pool

/-- The `matching()` lookup of the pool's `i`-th nucleoside. -/
def matchingOf (pool : List Nuc) (i : ℕ) : Option ℕ :=
  (pool.get? i).bind Nuc.matching

/-- Lines 344-350 of `strand.py`: one loop iteration of the sequence
setter — set the nucleoside's base, then, if it has a matching
nucleoside, set that nucleoside's base to the complement. -/
def seqStep (pool : List Nuc) (pr : ℕ × Option Base) : List Nuc :=
  let pool1 := setBaseAt pool pr.1 pr.2
  match matchingOf pool1 pr.1 with
  | some j => setBaseAt pool1 j (complementB pr.2)
  | none => pool1

/-- Lines 340-355 of `strand.py`: the `Strand.sequence` setter over a
shared nucleoside pool. `strand` lists the strand's nucleosides as pool
indices. Returns the final pool and, on length mismatch, the raised
error (the pool is then returned unchanged: the length check precedes
any mutation). -/
def setSequenceRun (pool : List Nuc) (strand : List ℕ)
    (newSeq : List (Option Base)) : List Nuc × Option String :=
  if newSeq.length = strand.length then
    ((strand.zip newSeq).foldl seqStep pool, none)
  else
    (pool, some "ValueError")

/-- The base of the pool's `i`-th nucleoside (as an `Option` over the
lookup). -/
def baseAt (pool : List Nuc) (i : ℕ) : Option (Option Base) :=
  (pool.get? i).map Nuc.base

/-! ## Dummy values for `getD` lookups -/

/-- Placeholder domain for out-of-range list lookups. -/
def dummyDomain : Domain := ⟨.UP, .UP, ⟨0, 0, 0⟩, ⟨0, 0, 0⟩⟩

/-- Placeholder per-domain result for out-of-range list lookups. -/
def dummyDH : DHResult :=
  ⟨dummyDomain, 0, 0, 0, 0, ⟨[], [], []⟩, ⟨[], [], []⟩⟩

/-! ## Basic lemmas about the numeric and list primitives -/

theorem aseq_length (a s : ℚ) (n : ℕ) : (aseq a s n).length = n := by
  simp [aseq]

theorem aseq_getD (a s : ℚ) {n k : ℕ} (hk : k < n) :
    (aseq a s n).getD k 0 = a + k * s := by
  simp [aseq, List.getD, List.getElem?_map, List.getElem?_range hk]

theorem aseq_cons (a s : ℚ) (n : ℕ) :
    aseq a s (n + 1) = a :: aseq (a + s) s n := by
  unfold aseq
  rw [List.range_succ_eq_map, List.map_cons, List.map_map]
  refine congrArg₂ _ (by norm_num) (List.map_congr_left fun k _ => ?_)
  simp only [Function.comp_apply, Nat.succ_eq_add_one]
  push_cast
  ring

theorem aseq_snoc (a s : ℚ) (n : ℕ) :
    aseq a s (n + 1) = aseq a s n ++ [a + n * s] := by
  unfold aseq
  rw [List.range_succ, List.map_append, List.map_singleton]

theorem aseq_append (a s : ℚ) (n m : ℕ) :
    aseq a s n ++ aseq (a + n * s) s m = aseq a s (n + m) := by
  unfold aseq
  rw [List.range_add, List.map_append, List.map_map]
  refine congrArg _ (List.map_congr_left fun k _ => ?_)
  simp only [Function.comp_apply]
  push_cast
  ring

theorem aseq_reverse (a s : ℚ) (n : ℕ) :
    (aseq a s (n + 1)).reverse = aseq (a + n * s) (-s) (n + 1) := by
  induction n generalizing a with
  | zero => simp [aseq, List.range_succ]
  | succ n ih =>
      rw [aseq_snoc a s (n + 1), List.reverse_append]
      push_cast
      rw [aseq_cons (a + ((n : ℚ) + 1) * s) (-s) (n + 1)]
      simp only [List.reverse_singleton, List.singleton_append]
      rw [ih a]
      refine congrArg₂ _ rfl (congrArg₂ (aseq · · (n + 1)) (by ring) rfl)

theorem arangeLen_exact (start stp : ℚ) {step : ℚ} (hstep : step ≠ 0)
    (n : ℕ) (h : stp - start = (n : ℚ) * step) :
    arangeLen start stp step = n := by
  unfold arangeLen
  rw [h, mul_div_assoc, div_self hstep, mul_one, Int.ceil_natCast,
    Int.toNat_natCast]

theorem arange_exact (start stp : ℚ) {step : ℚ} (hstep : step ≠ 0)
    (n : ℕ) (h : stp - start = (n : ℚ) * step) :
    arange start stp step = aseq start step n := by
  unfold arange
  rw [arangeLen_exact start stp hstep n h]

theorem pymod_sub_self (a b : ℚ) : pymod a b - a = -(b * ⌊a / b⌋) := by
  unfold pymod
  ring

theorem pymod_eq_mul_fract {b : ℚ} (hb : b ≠ 0) (a : ℚ) :
    pymod a b = b * Int.fract (a / b) := by
  unfold pymod Int.fract
  rw [mul_sub, mul_div_cancel₀ a hb]

theorem pymod_nonneg {b : ℚ} (hb : 0 < b) (a : ℚ) : 0 ≤ pymod a b := by
  rw [pymod_eq_mul_fract hb.ne' a]
  exact mul_nonneg hb.le (Int.fract_nonneg _)

theorem pymod_lt {b : ℚ} (hb : 0 < b) (a : ℚ) : pymod a b < b := by
  rw [pymod_eq_mul_fract hb.ne' a]
  nlinarith [Int.fract_lt_one (a / b)]

theorem pyint_intCast (m : ℤ) : pyint (m : ℚ) = m := by
  unfold pyint
  rw [Rat.num_intCast, Rat.den_intCast]
  exact Int.tdiv_one m

theorem shiftsOf_eq {P : NucleicAcidProfile} (hZ : P.Z_b ≠ 0) (az : ℚ) :
    shiftsOf P az = -⌊az / P.Z_b⌋ := by
  unfold shiftsOf initialZsub
  rw [pymod_sub_self]
  rw [show -(P.Z_b * ⌊az / P.Z_b⌋) / P.Z_b = ((-⌊az / P.Z_b⌋ : ℤ) : ℚ) by
    push_cast
    field_simp
    ring]
  exact pyint_intCast _

theorem shiftsOf_mul_Zb {P : NucleicAcidProfile} (hZ : P.Z_b ≠ 0) (az : ℚ) :
    (shiftsOf P az : ℚ) * P.Z_b = initialZsub P az - az := by
  rw [shiftsOf_eq hZ az]
  unfold initialZsub pymod
  push_cast
  ring

theorem everyOther_take (B : ℕ) {α : Type} (m : List α) :
    everyOther (m.take (2 * B)) = (everyOther m).take B := by
  induction B generalizing m with
  | zero => simp [everyOther]
  | succ B ih =>
      match m with
      | [] => simp [everyOther]
      | [a] => simp [everyOther, List.take]
      | a :: b :: rest =>
          rw [show 2 * (B + 1) = 2 * B + 1 + 1 by ring]
          simp only [List.take, everyOther, ih rest]

theorem oddItems_take (B : ℕ) {α : Type} (l : List α) :
    oddItems (l.take (2 * B + 1)) = (oddItems l).take B := by
  unfold oddItems
  rw [List.drop_take]
  simp only [Nat.add_sub_cancel]
  exact everyOther_take B (l.drop 1)

theorem argmaxAux_spec (rest : List ℚ) :
    ∀ (full : List ℚ) (best : ℚ) (bi i : ℕ),
      full.length = i + rest.length →
      (∀ t, rest.getD t 0 = full.getD (i + t) 0) →
      bi < full.length →
      full.getD bi 0 = best →
      (∀ k, k < i → full.getD k 0 ≤ best) →
      argmaxAux rest best bi i < full.length ∧
        ∀ k, k < full.length →
          full.getD k 0 ≤ full.getD (argmaxAux rest best bi i) 0 := by
  induction rest with
  | nil =>
      intro full best bi i hlen _ hbi hbest hmax
      refine ⟨hbi, fun k hk => ?_⟩
      show full.getD k 0 ≤ full.getD bi 0
      rw [hbest]
      exact hmax k (by simp at hlen; omega)
  | cons a rest ih =>
      intro full best bi i hlen htail hbi hbest hmax
      have ha : full.getD i 0 = a := by
        have := htail 0
        simpa using this.symm
      have hlen' : full.length = (i + 1) + rest.length := by
        simp at hlen
        omega
      have htail' : ∀ t, rest.getD t 0 = full.getD (i + 1 + t) 0 := by
        intro t
        have h1 := htail (t + 1)
        have h2 : (a :: rest).getD (t + 1) 0 = rest.getD t 0 := rfl
        rw [h2] at h1
        rw [h1]
        congr 1
        omega
      by_cases hcase : best < a
      · have hrw : argmaxAux (a :: rest) best bi i = argmaxAux rest a i (i + 1) := by
          simp [argmaxAux, hcase]
        rw [hrw]
        exact ih full a i (i + 1) hlen' htail' (by omega) ha
          (fun k hk => by
            rcases Nat.lt_or_ge k i with h | h
            · exact le_trans (hmax k h) hcase.le
            · have : k = i := by omega
              rw [this, ha])
      · have hrw : argmaxAux (a :: rest) best bi i = argmaxAux rest best bi (i + 1) := by
          simp [argmaxAux, hcase]
        rw [hrw]
        exact ih full best bi (i + 1) hlen' htail' hbi hbest
          (fun k hk => by
            rcases Nat.lt_or_ge k i with h | h
            · exact hmax k h
            · have : k = i := by omega
              rw [this, ha]
              exact le_of_not_lt hcase)

theorem argmax_lt_length {l : List ℚ} (h : l ≠ []) : argmax l < l.length := by
  match l with
  | a :: rest =>
      exact (argmaxAux_spec rest (a :: rest) a 0 1 (by simp; omega)
        (fun t => by rw [Nat.add_comm 1 t]; rfl) (by simp) rfl
        (fun k hk => by
          have : k = 0 := by omega
          rw [this]; rfl)).1

theorem argmax_is_max (l : List ℚ) (k : ℕ) (hk : k < l.length) :
    l.getD k 0 ≤ l.getD (argmax l) 0 := by
  match l with
  | a :: rest =>
      exact (argmaxAux_spec rest (a :: rest) a 0 1 (by simp; omega)
        (fun t => by rw [Nat.add_comm 1 t]; rfl) (by simp) rfl
        (fun k hk => by
          have : k = 0 := by omega
          rw [this]; rfl)).2 k hk

/-! ## Claim C2 — matching assignment -/

theorem matchingPairs_take {α : Type} (up down : List α) :
    matchingPairs up down = (up.take 1).zip (down.take 1) := by
  rcases up with _ | ⟨a, _ | ⟨c, up⟩⟩ <;> rcases down with _ | ⟨b, down⟩ <;>
    simp [matchingPairs, everyOther, headSlice]

/-- Claim C2 counterexample: on five-item strands the source pairing —
`items[0::2]` zipped with `items[0::-2]` — is not the NEMid-only
reverse-order pairing the claim describes. -/
theorem claim_C2_counterexample :
    ¬ (∀ (up down : List ℕ),
        matchingPairs up down = matchingPairsSpec up down) := by
  intro h
  exact absurd (h [10, 11, 12, 13, 14] [20, 21, 22, 23, 24]) (by decide)

/-- Claim C2 amended: the matching pass zips the UP strand's even-index
items (`items[0::2]`, the Nucleoside positions) with the single-element
slice `items[0::-2]` of the DOWN strand, so exactly one pair — the two
strands' first items — is matched, and that pair is set symmetrically. -/
theorem claim_C2_amended (upLen downLen : ℕ) :
    matchingPairs (List.range upLen) (List.range downLen)
      = ((List.range upLen).take 1).zip ((List.range downLen).take 1) ∧
    (0 < upLen → 0 < downLen →
      runMatching upLen downLen (true, 0) = some (false, 0) ∧
      runMatching upLen downLen (false, 0) = some (true, 0)) := by
  refine ⟨matchingPairs_take _ _, fun hup hdown => ?_⟩
  obtain ⟨n, rfl⟩ : ∃ n, upLen = n + 1 := ⟨upLen - 1, by omega⟩
  obtain ⟨m, rfl⟩ : ∃ m, downLen = m + 1 := ⟨downLen - 1, by omega⟩
  unfold runMatching
  rw [matchingPairs_take]
  rw [List.take_range, List.take_range]
  norm_num
  constructor <;> rfl

/-! ## Structure of the `compute` recurrence -/

theorem computeAux_length (x_of : ℚ → Domain → ℚ) (P : NucleicAcidProfile)
    (padding : ℚ) (ds : List Domain) :
    ∀ prev, (computeAux x_of P padding prev ds).length = ds.length := by
  induction ds with
  | nil => intro prev; rfl
  | cons d rest ih => intro prev; simp [computeAux, ih]

theorem compute_length (x_of : ℚ → Domain → ℚ) (P : NucleicAcidProfile)
    (ds : List Domain) (padding : ℚ) :
    (compute x_of P ds padding).length = ds.length := by
  cases ds with
  | nil => rfl
  | cons d rest => simp [compute, computeAux_length]

theorem mem_computeAux (x_of : ℚ → Domain → ℚ) (P : NucleicAcidProfile)
    (padding : ℚ) (ds : List Domain) :
    ∀ prev r, r ∈ computeAux x_of P padding prev ds →
      ∃ d az, r = computeDH x_of P d padding az := by
  induction ds with
  | nil => intro prev r h; cases h
  | cons d rest ih =>
      intro prev r h
      rcases List.mem_cons.mp h with h0 | h1
      · exact ⟨d, _, h0⟩
      · exact ih _ r h1

theorem mem_compute (x_of : ℚ → Domain → ℚ) (P : NucleicAcidProfile)
    (ds : List Domain) (padding : ℚ) (r : DHResult)
    (h : r ∈ compute x_of P ds padding) :
    ∃ d az, r = computeDH x_of P d padding az := by
  cases ds with
  | nil => cases h
  | cons d rest =>
      rcases List.mem_cons.mp h with h0 | h1
      · exact ⟨d, 0, h0⟩
      · exact mem_computeAux x_of P padding rest _ r h1

theorem compute_getD_zero (x_of : ℚ → Domain → ℚ) (P : NucleicAcidProfile)
    (ds : List Domain) (padding : ℚ) (h : ds ≠ []) :
    (compute x_of P ds padding).getD 0 dummyDH
      = computeDH x_of P (ds.getD 0 dummyDomain) padding 0 := by
  cases ds with
  | nil => exact absurd rfl h
  | cons d rest => rfl

theorem computeAux_getD_succ (x_of : ℚ → Domain → ℚ) (P : NucleicAcidProfile)
    (padding : ℚ) (ds : List Domain) :
    ∀ prev i, i + 1 < (computeAux x_of P padding prev ds).length →
      (computeAux x_of P padding prev ds).getD (i + 1) dummyDH
        = computeDH x_of P (ds.getD (i + 1) dummyDomain) padding
            (alignedZFor P
              (((computeAux x_of P padding prev ds).getD i dummyDH).rightHelix)) := by
  induction ds with
  | nil => intro prev i h; simp [computeAux] at h
  | cons d rest ih =>
      intro prev i h
      rw [computeAux_length] at h
      cases i with
      | zero =>
          cases rest with
          | nil => simp at h
          | cons d2 rest2 => rfl
      | succ i =>
          have h' : i + 1 < (computeAux x_of P padding
              (computeDH x_of P d padding (alignedZFor P prev.rightHelix))
              rest).length := by
            rw [computeAux_length]
            simp at h
            omega
          exact ih _ i h'

theorem compute_getD_succ (x_of : ℚ → Domain → ℚ) (P : NucleicAcidProfile)
    (ds : List Domain) (padding : ℚ) (i : ℕ)
    (h : i + 1 < (compute x_of P ds padding).length) :
    (compute x_of P ds padding).getD (i + 1) dummyDH
      = computeDH x_of P (ds.getD (i + 1) dummyDomain) padding
          (alignedZFor P
            (((compute x_of P ds padding).getD i dummyDH).rightHelix)) := by
  cases ds with
  | nil => simp [compute] at h
  | cons d rest =>
      rw [compute_length] at h
      cases i with
      | zero =>
          cases rest with
          | nil => simp at h
          | cons d2 rest2 => rfl
      | succ i =>
          have h' : i + 1 < (computeAux x_of P padding
              (computeDH x_of P d padding 0) rest).length := by
            rw [computeAux_length]
            simp at h
            omega
          exact computeAux_getD_succ x_of P padding rest _ i h'

/-! ## Claim C7 — derivation of the other helix -/

/-- Claim C7: the other helix starts from the same anchor as the zeroed
helix (axial anchor `initial_z_coord`, angular anchor `shifts·theta_b`),
offset by `-switch_sign·Z_mate` axially and `-switch_sign·g` angularly
with `switch_sign = -1` iff the other helix's direction is DOWN, and its
span uses the domain's `other_helix_count` counts. -/
theorem claim_C7 (P : NucleicAcidProfile) (d : Domain) (az : ℚ)
    (hZ : P.Z_b ≠ 0) :
    otherInitialZ P d az
        = initialZsub P az + (-(modifierOf d)) * P.Z_mate
          - (d.other_helix_count.bottom_count : ℚ) * P.Z_b - P.Z_b / 2 ∧
    otherInitialAngle P d az
        = anchorAngleOf P az + (-(modifierOf d)) * P.g
          - (d.other_helix_count.bottom_count : ℚ) * P.theta_b
          - P.theta_b / 2 ∧
    modifierOf d = (if otherDirection d = Direction.DOWN then -1 else 1) ∧
    zeroedInitialZ P d az
        = initialZsub P az
          - (d.left_helix_count.bottom_count : ℚ) * P.Z_b - P.Z_b / 2 ∧
    otherFinalZ P d az - otherInitialZ P d az = otherIncrements d * P.Z_b ∧
    otherFinalAngle P d az - otherInitialAngle P d az
        = otherIncrements d * P.theta_b := by
  refine ⟨?_, ?_, rfl, rfl, ?_, ?_⟩
  · unfold otherInitialZ
    rw [shiftsOf_mul_Zb hZ]
    ring
  · unfold otherInitialAngle anchorAngleOf
    ring
  · unfold otherFinalZ
    ring
  · unfold otherFinalAngle
    ring

/-- Claim C7 witness at a concrete profile and domain. -/
theorem claim_C7_witness :
    ((⟨10, 1, 3, 5, 2⟩ : NucleicAcidProfile).Z_b ≠ 0) ∧
    otherInitialZ ⟨10, 1, 3, 5, 2⟩ ⟨.UP, .UP, ⟨1, 2, 1⟩, ⟨2, 3, 1⟩⟩ (7/2)
        = initialZsub ⟨10, 1, 3, 5, 2⟩ (7/2)
          + (-(modifierOf ⟨.UP, .UP, ⟨1, 2, 1⟩, ⟨2, 3, 1⟩⟩)) * (3 : ℚ)
          - (2 : ℚ) * 1 - 1 / 2 :=
  ⟨by norm_num,
    (claim_C7 ⟨10, 1, 3, 5, 2⟩ ⟨.UP, .UP, ⟨1, 2, 1⟩, ⟨2, 3, 1⟩⟩ (7/2)
      (by norm_num)).1⟩

/-! ## Claim C6 — sub-step alignment -/

unseal Rat.add Rat.mul Rat.inv Rat.sub in
/-- Claim C6 counterexample: at the second domain of a concrete
two-domain run the angular anchor is `-10`, which is neither reduced
modulo 360 nor inside `[0, 360)`. -/
theorem claim_C6_counterexample :
    ¬ (∀ (x_of : ℚ → Domain → ℚ) (P : NucleicAcidProfile)
        (ds : List Domain) (padding : ℚ),
        ∀ r ∈ compute x_of P ds padding,
          r.initialZ = pymod r.alignedZ P.Z_b ∧
          r.initialZ - r.alignedZ = (r.shifts : ℚ) * P.Z_b ∧
          r.anchorAngle = pymod ((r.shifts : ℚ) * P.theta_b) 360 ∧
          0 ≤ r.anchorAngle ∧ r.anchorAngle < 360) := by
  intro h
  exact absurd
    (h (fun a _ => a) ⟨10, 1, 0, 0, 2⟩
      [⟨.UP, .UP, ⟨0, 4, 0⟩, ⟨0, 4, 0⟩⟩, ⟨.UP, .UP, ⟨0, 4, 0⟩, ⟨0, 4, 0⟩⟩] 0)
    (by decide)

/-- Claim C6 amended: the anchor is reduced modulo `Z_b` into `[0, Z_b)`
and the half-step count `shifts` between the raw and reduced anchor is
recorded, but the angular anchor is `shifts·theta_b` with no modulo-360
reduction (it is negative whenever `shifts < 0`); the reduction into
`[0°, 360°)` is applied only to the zeroed helix's initial angle, after
the bottom-count offset. -/
theorem claim_C6_amended (x_of : ℚ → Domain → ℚ) (P : NucleicAcidProfile)
    (hZ : 0 < P.Z_b) (ds : List Domain) (padding : ℚ) :
    (∀ r ∈ compute x_of P ds padding,
      r.initialZ = pymod r.alignedZ P.Z_b ∧
      0 ≤ r.initialZ ∧ r.initialZ < P.Z_b ∧
      r.initialZ - r.alignedZ = (r.shifts : ℚ) * P.Z_b ∧
      r.anchorAngle = (r.shifts : ℚ) * P.theta_b) ∧
    (∀ (d : Domain) (az : ℚ),
      0 ≤ zeroedInitialAngle P d az ∧ zeroedInitialAngle P d az < 360) := by
  constructor
  · intro r hr
    obtain ⟨d, az, rfl⟩ := mem_compute x_of P ds padding r hr
    refine ⟨rfl, ?_, ?_, ?_, rfl⟩
    · exact pymod_nonneg hZ az
    · exact pymod_lt hZ az
    · show initialZsub P az - az = (shiftsOf P az : ℚ) * P.Z_b
      exact (shiftsOf_mul_Zb hZ.ne' az).symm
  · intro d az
    exact ⟨pymod_nonneg (by norm_num) _, pymod_lt (by norm_num) _⟩

unseal Rat.add Rat.mul Rat.inv Rat.sub in
/-- Claim C6 amended witness at a concrete run. -/
theorem claim_C6_amended_witness :
    (0 : ℚ) < (⟨10, 1, 0, 0, 2⟩ : NucleicAcidProfile).Z_b ∧
    ((compute (fun a _ => a) ⟨10, 1, 0, 0, 2⟩
        [⟨.UP, .UP, ⟨0, 4, 0⟩, ⟨0, 4, 0⟩⟩] 0).getD 0 dummyDH).initialZ
      = pymod
          ((compute (fun a _ => a) ⟨10, 1, 0, 0, 2⟩
            [⟨.UP, .UP, ⟨0, 4, 0⟩, ⟨0, 4, 0⟩⟩] 0).getD 0 dummyDH).alignedZ
          (⟨10, 1, 0, 0, 2⟩ : NucleicAcidProfile).Z_b :=
  ⟨by norm_num,
    ((claim_C6_amended (fun a _ => a) ⟨10, 1, 0, 0, 2⟩ (by norm_num)
      [⟨.UP, .UP, ⟨0, 4, 0⟩, ⟨0, 4, 0⟩⟩] 0).1 _ (by decide)).1⟩

/-! ## Claim C4 — equal-length coordinate arrays -/

theorem arangeLen_half_step (a c incr : ℚ) (hc : c ≠ 0) :
    arangeLen a (a + incr * c) (c / 2) = (⌈(2 : ℚ) * incr⌉).toNat := by
  have h : (a + incr * c - a) / (c / 2) = 2 * incr := by
    field_simp
    ring
  unfold arangeLen
  rw [h]

theorem zeroedHelixData_lengths (x_of : ℚ → Domain → ℚ)
    (P : NucleicAcidProfile) (d : Domain) (az : ℚ)
    (hZ : P.Z_b ≠ 0) (hT : P.theta_b ≠ 0) :
    (zeroedHelixData x_of P d 0 az).z_coords.length
        = (zeroedHelixData x_of P d 0 az).angles.length ∧
    (zeroedHelixData x_of P d 0 az).x_coords.length
        = (zeroedHelixData x_of P d 0 az).angles.length := by
  unfold zeroedHelixData x_coords_from_angles
  refine ⟨?_, by simp⟩
  show (arange (zeroedInitialZ P d az) (zeroedFinalZ P d az + 0)
      (P.Z_b / 2)).length = (arange (zeroedInitialAngle P d az)
      (zeroedFinalAngle P d az + 0) (P.theta_b / 2)).length
  unfold arange
  rw [aseq_length, aseq_length, add_zero, add_zero]
  unfold zeroedFinalZ zeroedFinalAngle
  rw [arangeLen_half_step _ _ _ hZ, arangeLen_half_step _ _ _ hT]

theorem otherHelixData_lengths (x_of : ℚ → Domain → ℚ)
    (P : NucleicAcidProfile) (d : Domain) (az : ℚ)
    (hZ : P.Z_b ≠ 0) (hT : P.theta_b ≠ 0) :
    (otherHelixData x_of P d 0 az).z_coords.length
        = (otherHelixData x_of P d 0 az).angles.length ∧
    (otherHelixData x_of P d 0 az).x_coords.length
        = (otherHelixData x_of P d 0 az).angles.length := by
  unfold otherHelixData x_coords_from_angles
  refine ⟨?_, by simp⟩
  show (arange (otherInitialZ P d az) (otherFinalZ P d az + 0)
      (P.Z_b / 2)).length = (arange (otherInitialAngle P d az)
      (otherFinalAngle P d az + 0) (P.theta_b / 2)).length
  unfold arange
  rw [aseq_length, aseq_length, add_zero, add_zero]
  unfold otherFinalZ otherFinalAngle
  rw [arangeLen_half_step _ _ _ hZ, arangeLen_half_step _ _ _ hT]

theorem flip_lengths (h : HelixData) :
    (h.flip).z_coords.length = h.z_coords.length ∧
    (h.flip).angles.length = h.angles.length ∧
    (h.flip).x_coords.length = h.x_coords.length := by
  unfold HelixData.flip
  simp

unseal Rat.add Rat.mul Rat.inv Rat.sub in
/-- Claim C4 counterexample: with padding `3/5` a concrete single-domain
run produces a zeroed (up) helix with 5 z coordinates but only 4 angles,
so the equal-length invariant fails for nonzero padding. -/
theorem claim_C4_counterexample :
    ¬ (∀ (x_of : ℚ → Domain → ℚ) (P : NucleicAcidProfile)
        (ds : List Domain) (padding : ℚ),
        ∀ r ∈ compute x_of P ds padding,
          (r.upH.x_coords.length = r.upH.z_coords.length ∧
            r.upH.z_coords.length = r.upH.angles.length) ∧
          (r.downH.x_coords.length = r.downH.z_coords.length ∧
            r.downH.z_coords.length = r.downH.angles.length)) := by
  intro h
  exact absurd
    (h (fun a _ => a) ⟨10, 1, 0, 0, 2⟩
      [⟨.UP, .UP, ⟨0, 1, 0⟩, ⟨0, 1, 0⟩⟩] (mkRat 3 5))
    (by decide)

/-- Claim C4 amended: with the default padding 0 (and nonzero step
constants) every computed helix has x, z, and angle arrays of equal
length; a nonzero padding can break the z/angle length equality. -/
theorem claim_C4_amended (x_of : ℚ → Domain → ℚ) (P : NucleicAcidProfile)
    (hZ : P.Z_b ≠ 0) (hT : P.theta_b ≠ 0) (ds : List Domain) :
    ∀ r ∈ compute x_of P ds 0,
      (r.upH.x_coords.length = r.upH.z_coords.length ∧
        r.upH.z_coords.length = r.upH.angles.length) ∧
      (r.downH.x_coords.length = r.downH.z_coords.length ∧
        r.downH.z_coords.length = r.downH.angles.length) := by
  intro r hr
  obtain ⟨d, az, rfl⟩ := mem_compute x_of P ds 0 r hr
  have hzl := zeroedHelixData_lengths x_of P d az hZ hT
  have hol := otherHelixData_lengths x_of P d az hZ hT
  unfold computeDH
  dsimp only
  constructor
  · split
    · exact ⟨hzl.2.trans hzl.1.symm, hzl.1⟩
    · exact ⟨hol.2.trans hol.1.symm, hol.1⟩
  · split
    · refine ⟨?_, ?_⟩ <;>
        simp only [(flip_lengths _).1, (flip_lengths _).2.1,
          (flip_lengths _).2.2]
      · exact hol.2.trans hol.1.symm
      · exact hol.1
    · refine ⟨?_, ?_⟩ <;>
        simp only [(flip_lengths _).1, (flip_lengths _).2.1,
          (flip_lengths _).2.2]
      · exact hzl.2.trans hzl.1.symm
      · exact hzl.1

unseal Rat.add Rat.mul Rat.inv Rat.sub in
/-- Claim C4 amended witness at a concrete run. -/
theorem claim_C4_amended_witness :
    ((⟨10, 1, 0, 0, 2⟩ : NucleicAcidProfile).Z_b ≠ 0) ∧
    (((compute (fun a _ => a) ⟨10, 1, 0, 0, 2⟩
          [⟨.UP, .UP, ⟨0, 1, 0⟩, ⟨0, 1, 0⟩⟩] 0).getD 0
        dummyDH).upH.x_coords.length
      = ((compute (fun a _ => a) ⟨10, 1, 0, 0, 2⟩
          [⟨.UP, .UP, ⟨0, 1, 0⟩, ⟨0, 1, 0⟩⟩] 0).getD 0
        dummyDH).upH.z_coords.length) :=
  ⟨by norm_num,
    ((claim_C4_amended (fun a _ => a) ⟨10, 1, 0, 0, 2⟩ (by norm_num)
      (by norm_num) [⟨.UP, .UP, ⟨0, 1, 0⟩, ⟨0, 1, 0⟩⟩] _ (by decide)).1).1⟩

/-! ## Claim C5 — x derived from angle -/

theorem flip_x_map (h : HelixData) (f : ℚ → ℚ)
    (hx : h.x_coords = h.angles.map f) :
    (h.flip).x_coords = (h.flip).angles.map f := by
  unfold HelixData.flip
  simp [hx, List.map_reverse]

theorem computeDH_upH_x (x_of : ℚ → Domain → ℚ) (P : NucleicAcidProfile)
    (d : Domain) (padding az : ℚ) :
    (computeDH x_of P d padding az).upH.x_coords
      = (computeDH x_of P d padding az).upH.angles.map
          (fun a => x_of a (computeDH x_of P d padding az).domain) := by
  unfold computeDH
  dsimp only
  split <;> rfl

theorem computeDH_downH_x (x_of : ℚ → Domain → ℚ) (P : NucleicAcidProfile)
    (d : Domain) (padding az : ℚ) :
    (computeDH x_of P d padding az).downH.x_coords
      = (computeDH x_of P d padding az).downH.angles.map
          (fun a => x_of a (computeDH x_of P d padding az).domain) := by
  unfold computeDH
  dsimp only
  split <;> exact flip_x_map _ _ rfl

/-- Claim C5: every point's x coordinate is the supplied angle-to-x
mapping applied to that point's angle and domain — in `compute` (both
helices, including the flipped down helix) and in `Strand._generate`
(after truncation). -/
theorem claim_C5 (x_of : ℚ → Domain → ℚ) (P : NucleicAcidProfile)
    (ds : List Domain) (padding : ℚ) :
    (∀ r ∈ compute x_of P ds padding,
      r.upH.x_coords = r.upH.angles.map (fun a => x_of a r.domain) ∧
      r.downH.x_coords = r.downH.angles.map (fun a => x_of a r.domain)) ∧
    (∀ (d : Domain) (edgeAngle edgeZ : ℚ) (count : ℕ) (gd : GenDir),
      (generateData x_of P d edgeAngle edgeZ count gd).x_coords
        = (generateData x_of P d edgeAngle edgeZ count gd).angles.map
            (fun a => x_of a d)) := by
  constructor
  · intro r hr
    obtain ⟨d, az, rfl⟩ := mem_compute x_of P ds padding r hr
    exact ⟨computeDH_upH_x x_of P d padding az,
      computeDH_downH_x x_of P d padding az⟩
  · intro d edgeAngle edgeZ count gd
    unfold generateData
    dsimp only
    rw [← List.map_take]

unseal Rat.add Rat.mul Rat.inv Rat.sub in
/-- Claim C5 witness at a concrete run. -/
theorem claim_C5_witness :
    ((compute (fun a _ => a) ⟨10, 1, 0, 0, 2⟩
        [⟨.UP, .UP, ⟨0, 1, 0⟩, ⟨0, 1, 0⟩⟩] 0).getD 0 dummyDH).upH.x_coords
      = ((compute (fun a _ => a) ⟨10, 1, 0, 0, 2⟩
          [⟨.UP, .UP, ⟨0, 1, 0⟩, ⟨0, 1, 0⟩⟩] 0).getD 0
          dummyDH).upH.angles.map
          (fun a => (fun a _ => a) a
            ((compute (fun a _ => a) ⟨10, 1, 0, 0, 2⟩
              [⟨.UP, .UP, ⟨0, 1, 0⟩, ⟨0, 1, 0⟩⟩] 0).getD 0
              dummyDH).domain) :=
  ((claim_C5 (fun a _ => a) ⟨10, 1, 0, 0, 2⟩
    [⟨.UP, .UP, ⟨0, 1, 0⟩, ⟨0, 1, 0⟩⟩] 0).1 _ (by decide)).1

/-! ## Claim C1 — the anchor z coordinate -/

/-- Claim C1: domain 0's anchor is 0; domain `i+1`'s anchor is the z
coordinate of the NEMid sample achieving the maximum x among the first
`B` NEMid-only samples (every second element starting at index 1, all
within the first `2·B` items) of the previous double helix's right-joint
helix, reduced modulo `|Z_b·B|`. -/
theorem claim_C1 (x_of : ℚ → Domain → ℚ) (P : NucleicAcidProfile)
    (ds : List Domain) (padding : ℚ) :
    (ds ≠ [] → ((compute x_of P ds padding).getD 0 dummyDH).alignedZ = 0) ∧
    (∀ i, i + 1 < (compute x_of P ds padding).length →
      ((compute x_of P ds padding).getD (i + 1) dummyDH).alignedZ
          = pymod
              ((oddItems (((compute x_of P ds padding).getD i
                  dummyDH).rightHelix).z_coords).getD
                (argmax ((oddItems (((compute x_of P ds padding).getD i
                  dummyDH).rightHelix).x_coords).take P.B)) 0)
              |P.Z_b * (P.B : ℚ)| ∧
        (∀ k, k < ((oddItems (((compute x_of P ds padding).getD i
              dummyDH).rightHelix).x_coords).take P.B).length →
          ((oddItems (((compute x_of P ds padding).getD i
              dummyDH).rightHelix).x_coords).take P.B).getD k 0
            ≤ ((oddItems (((compute x_of P ds padding).getD i
              dummyDH).rightHelix).x_coords).take P.B).getD
                (argmax ((oddItems (((compute x_of P ds padding).getD i
                  dummyDH).rightHelix).x_coords).take P.B)) 0) ∧
        ((oddItems (((compute x_of P ds padding).getD i
            dummyDH).rightHelix).x_coords).take P.B ≠ [] →
          argmax ((oddItems (((compute x_of P ds padding).getD i
              dummyDH).rightHelix).x_coords).take P.B)
            < ((oddItems (((compute x_of P ds padding).getD i
              dummyDH).rightHelix).x_coords).take P.B).length)) := by
  constructor
  · intro hne
    rw [compute_getD_zero x_of P ds padding hne]
    rfl
  · intro i hi
    rw [compute_getD_succ x_of P ds padding i hi]
    show alignedZFor P _ = _ ∧ _ ∧ _
    unfold alignedZFor rawAnchor decreaseInterval
    rw [oddItems_take]
    exact ⟨rfl, fun k hk => argmax_is_max _ k hk,
      fun hne => argmax_lt_length hne⟩

unseal Rat.add Rat.mul Rat.inv Rat.sub in
/-- Claim C1 witness at a concrete two-domain run. -/
theorem claim_C1_witness :
    ([⟨.UP, .UP, ⟨0, 4, 0⟩, ⟨0, 4, 0⟩⟩,
        ⟨.UP, .UP, ⟨0, 4, 0⟩, ⟨0, 4, 0⟩⟩] : List Domain) ≠ [] ∧
    (0 + 1 <
      (compute (fun a _ => a) ⟨10, 1, 0, 0, 2⟩
        [⟨.UP, .UP, ⟨0, 4, 0⟩, ⟨0, 4, 0⟩⟩,
          ⟨.UP, .UP, ⟨0, 4, 0⟩, ⟨0, 4, 0⟩⟩] 0).length) ∧
    ((compute (fun a _ => a) ⟨10, 1, 0, 0, 2⟩
        [⟨.UP, .UP, ⟨0, 4, 0⟩, ⟨0, 4, 0⟩⟩,
          ⟨.UP, .UP, ⟨0, 4, 0⟩, ⟨0, 4, 0⟩⟩] 0).getD 0 dummyDH).alignedZ
      = 0 := by
  refine ⟨by decide, by decide, ?_⟩
  exact (claim_C1 (fun a _ => a) ⟨10, 1, 0, 0, 2⟩
    [⟨.UP, .UP, ⟨0, 4, 0⟩, ⟨0, 4, 0⟩⟩,
      ⟨.UP, .UP, ⟨0, 4, 0⟩, ⟨0, 4, 0⟩⟩] 0).1 (by decide)

/-- Claim C2 amended witness at concrete strand lengths. -/
theorem claim_C2_amended_witness :
    (0 < 3 ∧ 0 < 5) ∧
    runMatching 3 5 (true, 0) = some (false, 0) ∧
    runMatching 3 5 (false, 0) = some (true, 0) :=
  ⟨⟨by norm_num, by norm_num⟩,
    (claim_C2_amended 3 5).2 (by norm_num) (by norm_num)⟩

/-! ## Claim C9 — strand extension as pure continuation -/

theorem genModifier_ne_zero (gd : GenDir) : genModifier gd ≠ 0 := by
  cases gd <;> norm_num [genModifier]

theorem generatedAngles_eq (P : NucleicAcidProfile) (edge : ℚ) (count : ℕ)
    (gd : GenDir) (hT : P.theta_b ≠ 0) :
    generatedAngles P edge count (genModifier gd)
      = aseq (edge + P.theta_b / 2 * genModifier gd)
          (genModifier gd * (P.theta_b / 2)) (2 * (count + 1)) := by
  unfold generatedAngles
  apply arange_exact
  · exact mul_ne_zero (genModifier_ne_zero gd) (div_ne_zero hT two_ne_zero)
  · push_cast
    ring

theorem generatedZ_eq (P : NucleicAcidProfile) (edge : ℚ) (count : ℕ)
    (gd : GenDir) (hZ : P.Z_b ≠ 0) :
    generatedZ P edge count (genModifier gd)
      = aseq (edge + P.Z_b / 2 * genModifier gd)
          (genModifier gd * (P.Z_b / 2)) (2 * (count + 1)) := by
  unfold generatedZ
  apply arange_exact
  · exact mul_ne_zero (genModifier_ne_zero gd) (div_ne_zero hZ two_ne_zero)
  · push_cast
    ring

theorem aseq_take_self (a s : ℚ) (n : ℕ) : (aseq a s n).take n = aseq a s n :=
  List.take_of_length_le (le_of_eq (aseq_length a s n))

theorem generateData_eq (x_of : ℚ → Domain → ℚ) (P : NucleicAcidProfile)
    (d : Domain) (edgeAngle edgeZ : ℚ) (count : ℕ) (gd : GenDir)
    (hT : P.theta_b ≠ 0) (hZ : P.Z_b ≠ 0) :
    generateData x_of P d edgeAngle edgeZ count gd
      = ⟨aseq (edgeAngle + P.theta_b / 2 * genModifier gd)
            (genModifier gd * (P.theta_b / 2)) (2 * (count + 1)),
          (aseq (edgeAngle + P.theta_b / 2 * genModifier gd)
            (genModifier gd * (P.theta_b / 2)) (2 * (count + 1))).map
            (fun a => x_of a d),
          aseq (edgeZ + P.Z_b / 2 * genModifier gd)
            (genModifier gd * (P.Z_b / 2)) (2 * (count + 1))⟩ := by
  unfold generateData
  dsimp only
  rw [generatedAngles_eq P edgeAngle count gd hT,
    generatedZ_eq P edgeZ count gd hZ]
  rw [List.length_map, aseq_length, aseq_length, min_self, min_self]
  rw [aseq_take_self, aseq_take_self,
    List.take_of_length_le (le_of_eq (by rw [List.length_map, aseq_length]))]

theorem aseq_continuation_left (a s : ℚ) (n M : ℕ) :
    (aseq (a - s) (-s) M).reverse ++ aseq a s n
      = aseq (a - (M : ℚ) * s) s (M + n) := by
  cases M with
  | zero =>
      show ([] : List ℚ).reverse ++ aseq a s n
        = aseq (a - ((0 : ℕ) : ℚ) * s) s (0 + n)
      have h0 : a - ((0 : ℕ) : ℚ) * s = a := by push_cast; ring
      rw [h0]
      simp
  | succ m =>
      rw [aseq_reverse (a - s) (-s) m, neg_neg]
      have h1 : a - s + (m : ℚ) * -s = a - ((m : ℚ) + 1) * s := by ring
      rw [h1]
      have h2 := aseq_append (a - ((m : ℚ) + 1) * s) s (m + 1) n
      have h3 : a - ((m : ℚ) + 1) * s + ((m + 1 : ℕ) : ℚ) * s = a := by
        push_cast
        ring
      rw [h3] at h2
      rw [h2]
      exact congrArg (fun x => aseq x s (m + 1 + n)) (by push_cast; ring)

/-- Claim C9: `_generate` extends a strand by a pure continuation of the
edge point's arithmetic sequences — `2·(count+1)` new samples stepping
by `theta_b/2` and `Z_b/2` in the requested direction, all three arrays
truncated to a common length — so splicing them onto a sequence
`compute` produced yields exactly the longer arithmetic sequence that a
longer span would have produced. -/
theorem claim_C9 (x_of : ℚ → Domain → ℚ) (P : NucleicAcidProfile)
    (d : Domain) (edgeAngle edgeZ : ℚ) (count : ℕ)
    (hT : P.theta_b ≠ 0) (hZ : P.Z_b ≠ 0) :
    (∀ gd : GenDir,
      (generateData x_of P d edgeAngle edgeZ count gd).angles.length
          = 2 * (count + 1) ∧
      (generateData x_of P d edgeAngle edgeZ count gd).x_coords.length
          = 2 * (count + 1) ∧
      (generateData x_of P d edgeAngle edgeZ count gd).z_coords.length
          = 2 * (count + 1) ∧
      (∀ k, k < 2 * (count + 1) →
        (generateData x_of P d edgeAngle edgeZ count gd).angles.getD k 0
            = edgeAngle
              + ((k : ℚ) + 1) * (genModifier gd * (P.theta_b / 2)) ∧
        (generateData x_of P d edgeAngle edgeZ count gd).z_coords.getD k 0
            = edgeZ + ((k : ℚ) + 1) * (genModifier gd * (P.Z_b / 2)))) ∧
    (∀ (a : ℚ) (n : ℕ), 1 ≤ n → edgeZ = a + ((n : ℚ) - 1) * (P.Z_b / 2) →
      spliced .RIGHT (aseq a (P.Z_b / 2) n)
          (generateData x_of P d edgeAngle edgeZ count .RIGHT).z_coords
        = aseq a (P.Z_b / 2) (n + 2 * (count + 1))) ∧
    (∀ (a : ℚ) (n : ℕ), 1 ≤ n →
      edgeAngle = a + ((n : ℚ) - 1) * (P.theta_b / 2) →
      spliced .RIGHT (aseq a (P.theta_b / 2) n)
          (generateData x_of P d edgeAngle edgeZ count .RIGHT).angles
        = aseq a (P.theta_b / 2) (n + 2 * (count + 1))) ∧
    (∀ n : ℕ,
      spliced .LEFT (aseq edgeZ (P.Z_b / 2) n)
          (generateData x_of P d edgeAngle edgeZ count .LEFT).z_coords
        = aseq (edgeZ - ((2 * (count + 1) : ℕ) : ℚ) * (P.Z_b / 2))
            (P.Z_b / 2) (2 * (count + 1) + n)) := by
  refine ⟨?_, ?_, ?_, ?_⟩
  · intro gd
    rw [generateData_eq x_of P d edgeAngle edgeZ count gd hT hZ]
    refine ⟨by simp [aseq_length], by simp [aseq_length], by
      simp [aseq_length], fun k hk => ?_⟩
    constructor
    · show (aseq _ _ _).getD k 0 = _
      rw [aseq_getD _ _ hk]
      ring
    · show (aseq _ _ _).getD k 0 = _
      rw [aseq_getD _ _ hk]
      ring
  · intro a n hn he
    rw [generateData_eq x_of P d edgeAngle edgeZ count .RIGHT hT hZ]
    show aseq a (P.Z_b / 2) n ++ aseq _ _ _ = _
    have h1 : edgeZ + P.Z_b / 2 * genModifier GenDir.RIGHT
        = a + (n : ℚ) * (P.Z_b / 2) := by
      rw [he]
      show a + ((n : ℚ) - 1) * (P.Z_b / 2) + P.Z_b / 2 * 1 = _
      ring
    have h2 : genModifier GenDir.RIGHT * (P.Z_b / 2) = P.Z_b / 2 := by
      show 1 * (P.Z_b / 2) = P.Z_b / 2
      ring
    rw [h1, h2]
    exact aseq_append a (P.Z_b / 2) n (2 * (count + 1))
  · intro a n hn he
    rw [generateData_eq x_of P d edgeAngle edgeZ count .RIGHT hT hZ]
    show aseq a (P.theta_b / 2) n ++ aseq _ _ _ = _
    have h1 : edgeAngle + P.theta_b / 2 * genModifier GenDir.RIGHT
        = a + (n : ℚ) * (P.theta_b / 2) := by
      rw [he]
      show a + ((n : ℚ) - 1) * (P.theta_b / 2) + P.theta_b / 2 * 1 = _
      ring
    have h2 : genModifier GenDir.RIGHT * (P.theta_b / 2) = P.theta_b / 2 := by
      show 1 * (P.theta_b / 2) = P.theta_b / 2
      ring
    rw [h1, h2]
    exact aseq_append a (P.theta_b / 2) n (2 * (count + 1))
  · intro n
    rw [generateData_eq x_of P d edgeAngle edgeZ count .LEFT hT hZ]
    show (aseq _ _ _).reverse ++ aseq edgeZ (P.Z_b / 2) n = _
    have h1 : edgeZ + P.Z_b / 2 * genModifier GenDir.LEFT
        = edgeZ - P.Z_b / 2 := by
      show edgeZ + P.Z_b / 2 * (-1) = _
      ring
    have h2 : genModifier GenDir.LEFT * (P.Z_b / 2) = -(P.Z_b / 2) := by
      show (-1) * (P.Z_b / 2) = _
      ring
    rw [h1, h2]
    exact aseq_continuation_left edgeZ (P.Z_b / 2) n (2 * (count + 1))

/-- Claim C9 witness at concrete inputs. -/
theorem claim_C9_witness :
    ((10 : ℚ) ≠ 0) ∧ ((2 : ℚ) ≠ 0) ∧
    (generateData (fun a _ => a) ⟨10, 2, 0, 0, 2⟩ dummyDomain 55 3 1
        GenDir.RIGHT).z_coords.length = 2 * (1 + 1) ∧
    spliced .RIGHT (aseq 1 ((2 : ℚ) / 2) 3)
        (generateData (fun a _ => a) ⟨10, 2, 0, 0, 2⟩ dummyDomain 55 3 1
          GenDir.RIGHT).z_coords
      = aseq 1 ((2 : ℚ) / 2) (3 + 2 * (1 + 1)) := by
  have h := claim_C9 (fun a _ => a) ⟨10, 2, 0, 0, 2⟩ dummyDomain 55 3 1
    (by norm_num) (by norm_num)
  exact ⟨by norm_num, by norm_num, (h.1 GenDir.RIGHT).2.2.1,
    h.2.1 1 3 (by norm_num) (by norm_num)⟩

/-! ## Claim C3 — juncmate symmetry -/

theorem juncStep_inv (tol width : ℚ) (c : Config) (f : PtId → PtId)
    (st : JuncState) (pr : PtId × PtId)
    (hpr : (fracFilter (ptAt c pr.1) (ptAt c pr.2)
        && overlapsSpec tol width (ptAt c pr.1) (ptAt c pr.2)) = true →
      pr.2 = f pr.1 ∧ pr.1 = f pr.2)
    (hinv : ∀ r s, st.juncmate r = some s →
      s = f r ∧ st.juncmate (f r) = some r) :
    ∀ r s, (juncStep tol width c st pr).juncmate r = some s →
      s = f r ∧ (juncStep tol width c st pr).juncmate (f r) = some r := by
  by_cases h : (fracFilter (ptAt c pr.1) (ptAt c pr.2)
      && overlapsSpec tol width (ptAt c pr.1) (ptAt c pr.2)) = true
  · obtain ⟨h21, h12⟩ := hpr h
    intro r s hrs
    have e : juncStep tol width c st pr
        = { juncmate := fun r =>
              if r = pr.1 then some pr.2
              else if r = pr.2 then some pr.1
              else st.juncmate r
            junctable := fun r =>
              if r = pr.1 ∨ r = pr.2 then true else st.junctable r } := by
      unfold juncStep
      rw [if_pos h]
    rw [e] at hrs ⊢
    dsimp only at hrs ⊢
    by_cases hr1 : r = pr.1
    · subst hr1
      rw [if_pos rfl] at hrs
      obtain rfl : pr.2 = s := Option.some.inj hrs
      refine ⟨h21, ?_⟩
      rw [← h21]
      by_cases h22 : pr.2 = pr.1
      · rw [if_pos h22, h22]
      · rw [if_neg h22, if_pos rfl]
    · by_cases hr2 : r = pr.2
      · subst hr2
        rw [if_neg hr1, if_pos rfl] at hrs
        obtain rfl : pr.1 = s := Option.some.inj hrs
        refine ⟨h12, ?_⟩
        rw [← h12, if_pos rfl]
      · rw [if_neg hr1, if_neg hr2] at hrs
        obtain ⟨hs, hm⟩ := hinv r s hrs
        have hfr1 : f r ≠ pr.1 := by
          intro he
          rw [he] at hm
          obtain ⟨hr', _⟩ := hinv pr.1 r hm
          exact hr2 (hr'.trans h21.symm)
        have hfr2 : f r ≠ pr.2 := by
          intro he
          rw [he] at hm
          obtain ⟨hr', _⟩ := hinv pr.2 r hm
          exact hr1 (hr'.trans h12.symm)
        rw [if_neg hfr1, if_neg hfr2]
        exact ⟨hs, hm⟩
  · have e : juncStep tol width c st pr = st := by
      unfold juncStep
      rw [if_neg h]
    rw [e]
    exact hinv

theorem juncFold_symm (tol width : ℚ) (c : Config) (f : PtId → PtId) :
    ∀ (pairs : List (PtId × PtId)) (st : JuncState),
      (∀ pr ∈ pairs,
        (fracFilter (ptAt c pr.1) (ptAt c pr.2)
          && overlapsSpec tol width (ptAt c pr.1) (ptAt c pr.2)) = true →
        pr.2 = f pr.1 ∧ pr.1 = f pr.2) →
      (∀ r s, st.juncmate r = some s →
        s = f r ∧ st.juncmate (f r) = some r) →
      ∀ r s,
        (pairs.foldl (juncStep tol width c) st).juncmate r = some s →
        s = f r ∧
          (pairs.foldl (juncStep tol width c) st).juncmate (f r) = some r := by
  intro pairs
  induction pairs with
  | nil => intro st _ hinv; exact hinv
  | cons pr pairs ih =>
      intro st hp hinv
      rw [List.foldl_cons]
      exact ih (juncStep tol width c st pr)
        (fun pr' h' => hp pr' (List.mem_cons_of_mem _ h'))
        (juncStep_inv tol width c f st pr
          (hp pr (List.mem_cons_self _ _)) hinv)

unseal Rat.add Rat.mul Rat.inv Rat.sub in
/-- Claim C3 counterexample: with one NEMid of the first double helix
overlapping two NEMids of the second, the later juncmate assignment
overwrites the earlier one, so the earlier partner's `juncmate` link is
no longer mutual. -/
theorem claim_C3_counterexample :
    ¬ (∀ p q : PtId,
        (strandsJunc 1
          [([((99 : ℚ), (99 : ℚ)), ((0 : ℚ), (0 : ℚ)),
              ((99 : ℚ), (99 : ℚ))], ([] : List Pt)),
            ([((99 : ℚ), (99 : ℚ)), ((0 : ℚ), (0 : ℚ)),
              ((99 : ℚ), (99 : ℚ)), ((0 : ℚ), (1 : ℚ)),
              ((99 : ℚ), (99 : ℚ))], ([] : List Pt))]).juncmate p = some q →
        (strandsJunc 1
          [([((99 : ℚ), (99 : ℚ)), ((0 : ℚ), (0 : ℚ)),
              ((99 : ℚ), (99 : ℚ))], ([] : List Pt)),
            ([((99 : ℚ), (99 : ℚ)), ((0 : ℚ), (0 : ℚ)),
              ((99 : ℚ), (99 : ℚ)), ((0 : ℚ), (1 : ℚ)),
              ((99 : ℚ), (99 : ℚ))], ([] : List Pt))]).juncmate q
          = some p) := by
  intro h
  have h1 := h (1, 0, 1) (0, 0, 1) (by decide)
  exact absurd h1 (by decide)

/-- Claim C3 amended: the juncmate relation is symmetric provided the
detected overlapping pairs follow a single mutual partner assignment
(each point overlaps only its unique partner); when a point overlaps
two NEMids, the later symmetric write overwrites the earlier one and the
earlier partner keeps a stale one-sided link. -/
theorem claim_C3_amended (tol width : ℚ) (c : Config) (f : PtId → PtId)
    (hf : ∀ pr ∈ candidatePairs c,
      (fracFilter (ptAt c pr.1) (ptAt c pr.2)
        && overlapsSpec tol width (ptAt c pr.1) (ptAt c pr.2)) = true →
      pr.2 = f pr.1 ∧ pr.1 = f pr.2) :
    ∀ p q, (runJunc tol width c).juncmate p = some q →
      (runJunc tol width c).juncmate q = some p := by
  intro p q h
  unfold runJunc at h ⊢
  obtain ⟨hq, hm⟩ := juncFold_symm tol width c f (candidatePairs c)
    initialJuncState hf
    (fun r s hrs => by simp [initialJuncState] at hrs) p q h
  rw [hq]
  exact hm

unseal Rat.add Rat.mul Rat.inv Rat.sub in
/-- Claim C3 amended witness: a two-domain configuration whose only
overlap is one mutual pair. -/
theorem claim_C3_amended_witness :
    (runJunc 1 2
        [([((99 : ℚ), (99 : ℚ)), ((0 : ℚ), (0 : ℚ)),
            ((99 : ℚ), (99 : ℚ))], ([] : List Pt)),
          ([((99 : ℚ), (99 : ℚ)), ((0 : ℚ), (0 : ℚ)),
            ((99 : ℚ), (99 : ℚ))], ([] : List Pt))]).juncmate (0, 0, 1)
      = some (1, 0, 1) ∧
    (runJunc 1 2
        [([((99 : ℚ), (99 : ℚ)), ((0 : ℚ), (0 : ℚ)),
            ((99 : ℚ), (99 : ℚ))], ([] : List Pt)),
          ([((99 : ℚ), (99 : ℚ)), ((0 : ℚ), (0 : ℚ)),
            ((99 : ℚ), (99 : ℚ))], ([] : List Pt))]).juncmate (1, 0, 1)
      = some (0, 0, 1) := by
  have h1 : (runJunc 1 2
      [([((99 : ℚ), (99 : ℚ)), ((0 : ℚ), (0 : ℚ)),
          ((99 : ℚ), (99 : ℚ))], ([] : List Pt)),
        ([((99 : ℚ), (99 : ℚ)), ((0 : ℚ), (0 : ℚ)),
          ((99 : ℚ), (99 : ℚ))], ([] : List Pt))]).juncmate (0, 0, 1)
      = some (1, 0, 1) := by decide
  refine ⟨h1, ?_⟩
  exact claim_C3_amended 1 2
    [([((99 : ℚ), (99 : ℚ)), ((0 : ℚ), (0 : ℚ)),
        ((99 : ℚ), (99 : ℚ))], ([] : List Pt)),
      ([((99 : ℚ), (99 : ℚ)), ((0 : ℚ), (0 : ℚ)),
        ((99 : ℚ), (99 : ℚ))], ([] : List Pt))]
    (fun p => if p = (0, 0, 1) then (1, 0, 1)
      else if p = (1, 0, 1) then (0, 0, 1) else p)
    (by decide) (0, 0, 1) (1, 0, 1) h1

/-! ## Claim C8 — the fractional-x pre-filter -/

theorem pymod_one_fract (x : ℚ) : pymod x 1 = Int.fract x := by
  unfold pymod Int.fract
  rw [div_one, one_mul]

theorem pymod_intwidth_congr (w : ℤ) (x y : ℚ)
    (h : pymod x (w : ℚ) = pymod y (w : ℚ)) : pymod x 1 = pymod y 1 := by
  have hxy : x = y + ((w * (⌊x / (w : ℚ)⌋ - ⌊y / (w : ℚ)⌋) : ℤ) : ℚ) := by
    unfold pymod at h
    push_cast
    linarith
  rw [pymod_one_fract, pymod_one_fract, hxy, Int.fract_add_int]

theorem overlaps_zero_filter (w : ℤ) (p q : Pt)
    (h : overlapsSpec 0 (w : ℚ) p q = true) : fracFilter p q = true := by
  unfold overlapsSpec at h
  rw [decide_eq_true_eq] at h
  obtain ⟨h1, _⟩ := h
  have hx : pymod p.1 (w : ℚ) = pymod q.1 (w : ℚ) :=
    sub_eq_zero.mp (abs_nonpos_iff.mp h1)
  unfold fracFilter
  rw [decide_eq_true_eq]
  exact pymod_intwidth_congr w p.1 q.1 hx

theorem juncStep_zero_eq (w : ℤ) (c : Config) (st : JuncState)
    (pr : PtId × PtId) :
    juncStep 0 (w : ℚ) c st pr = juncStepFull 0 (w : ℚ) c st pr := by
  unfold juncStep juncStepFull
  dsimp only
  by_cases h : overlapsSpec 0 (w : ℚ) (ptAt c pr.1) (ptAt c pr.2) = true
  · rw [overlaps_zero_filter w _ _ h, h]
    rfl
  · rw [Bool.not_eq_true] at h
    rw [h, Bool.and_false]

theorem runJunc_zero_eq (w : ℤ) (c : Config) :
    runJunc 0 (w : ℚ) c = runJuncFull 0 (w : ℚ) c := by
  unfold runJunc runJuncFull
  have hstep : juncStep 0 (w : ℚ) c = juncStepFull 0 (w : ℚ) c :=
    funext fun st => funext fun pr => juncStep_zero_eq w c st pr
  rw [hstep]

unseal Rat.add Rat.mul Rat.inv Rat.sub in
/-- Claim C8 counterexample: with tolerance 1/10 two NEMids at x = 0 and
x = 1/10 pass the full overlap test but have different fractional parts,
so the pre-filtered pass misses the pair the unfiltered pass assigns. -/
theorem claim_C8_counterexample :
    ¬ (∀ (tol : ℚ) (c : Config) (id : PtId),
        (strandsJunc tol c).juncmate id = (strandsJuncFull tol c).juncmate id ∧
        (strandsJunc tol c).junctable id
          = (strandsJuncFull tol c).junctable id) := by
  intro h
  exact absurd
    (h (mkRat 1 10)
      [([((99 : ℚ), (99 : ℚ)), ((0 : ℚ), (0 : ℚ)),
          ((99 : ℚ), (99 : ℚ))], ([] : List Pt)),
        ([((99 : ℚ), (99 : ℚ)), (mkRat 1 10, (0 : ℚ)),
          ((99 : ℚ), (99 : ℚ))], ([] : List Pt))]
      (0, 0, 1))
    (by decide)

/-- Claim C8 amended: when the full overlap test demands exact
coincidence (tolerance 0) and the width is an integer — as the total
domain count always is — the pre-filter is complete (x ≡ x' mod width
implies equal fractional parts), so the pre-filtered and unfiltered
passes assign identical junctable/juncmate results; a positive tolerance
can accept pairs with different fractional parts, which the exact
pre-filter rejects. -/
theorem claim_C8_amended (w : ℤ) (c : Config) (id : PtId) :
    (runJunc 0 (w : ℚ) c).juncmate id = (runJuncFull 0 (w : ℚ) c).juncmate id ∧
    (runJunc 0 (w : ℚ) c).junctable id
        = (runJuncFull 0 (w : ℚ) c).junctable id ∧
    (∀ p q : Pt, overlapsSpec 0 (w : ℚ) p q = true → fracFilter p q = true) :=
  ⟨by rw [runJunc_zero_eq], by rw [runJunc_zero_eq],
    fun p q h => overlaps_zero_filter w p q h⟩

unseal Rat.add Rat.mul Rat.inv Rat.sub in
/-- Claim C8 amended witness at a concrete configuration. -/
theorem claim_C8_amended_witness :
    (runJunc 0 ((2 : ℤ) : ℚ)
        [([((99 : ℚ), (99 : ℚ)), ((0 : ℚ), (0 : ℚ)),
            ((99 : ℚ), (99 : ℚ))], ([] : List Pt)),
          ([((99 : ℚ), (99 : ℚ)), ((2 : ℚ), (0 : ℚ)),
            ((99 : ℚ), (99 : ℚ))], ([] : List Pt))]).juncmate (0, 0, 1)
      = (runJuncFull 0 ((2 : ℤ) : ℚ)
        [([((99 : ℚ), (99 : ℚ)), ((0 : ℚ), (0 : ℚ)),
            ((99 : ℚ), (99 : ℚ))], ([] : List Pt)),
          ([((99 : ℚ), (99 : ℚ)), ((2 : ℚ), (0 : ℚ)),
            ((99 : ℚ), (99 : ℚ))], ([] : List Pt))]).juncmate (0, 0, 1) ∧
    fracFilter ((0 : ℚ), (0 : ℚ)) ((2 : ℚ), (0 : ℚ)) = true := by
  refine ⟨(claim_C8_amended 2
    [([((99 : ℚ), (99 : ℚ)), ((0 : ℚ), (0 : ℚ)),
        ((99 : ℚ), (99 : ℚ))], ([] : List Pt)),
      ([((99 : ℚ), (99 : ℚ)), ((2 : ℚ), (0 : ℚ)),
        ((99 : ℚ), (99 : ℚ))], ([] : List Pt))] (0, 0, 1)).1, ?_⟩
  exact (claim_C8_amended 2
    [([((99 : ℚ), (99 : ℚ)), ((0 : ℚ), (0 : ℚ)),
        ((99 : ℚ), (99 : ℚ))], ([] : List Pt)),
      ([((99 : ℚ), (99 : ℚ)), ((2 : ℚ), (0 : ℚ)),
        ((99 : ℚ), (99 : ℚ))], ([] : List Pt))] (0, 0, 1)).2.2
    ((0 : ℚ), (0 : ℚ)) ((2 : ℚ), (0 : ℚ)) (by decide)

/-! ## Claim C10 — the `Strand.sequence` setter -/

theorem setBaseAt_length (pool : List Nuc) (i : ℕ) (b : Option Base) :
    (setBaseAt pool i b).length = pool.length := by
  unfold setBaseAt
  cases h : pool.get? i with
  | none => rfl
  | some nuc => exact List.length_set pool i _

theorem setBaseAt_get_ne (pool : List Nuc) (i : ℕ) (b : Option Base)
    (j : ℕ) (hj : j ≠ i) :
    (setBaseAt pool i b).get? j = pool.get? j := by
  unfold setBaseAt
  cases h : pool.get? i with
  | none => rfl
  | some nuc => exact List.get?_set_ne _ pool (Ne.symm hj)

theorem setBaseAt_get_self (pool : List Nuc) (i : ℕ) (b : Option Base)
    (nuc : Nuc) (h : pool.get? i = some nuc) :
    (setBaseAt pool i b).get? i = some { nuc with base := b } := by
  unfold setBaseAt
  rw [h, List.get?_set_eq, h]
  rfl

theorem setBaseAt_matching (pool : List Nuc) (i : ℕ) (b : Option Base)
    (j : ℕ) :
    matchingOf (setBaseAt pool i b) j = matchingOf pool j := by
  by_cases hj : j = i
  · subst hj
    unfold matchingOf
    cases h : pool.get? j with
    | none =>
        have e : setBaseAt pool j b = pool := by
          unfold setBaseAt
          rw [h]
        rw [e, h]
    | some nuc =>
        rw [setBaseAt_get_self pool j b nuc h]
        rfl
  · unfold matchingOf
    rw [setBaseAt_get_ne pool i b j hj]

theorem seqStep_matching (pool : List Nuc) (pr : ℕ × Option Base) (j : ℕ) :
    matchingOf (seqStep pool pr) j = matchingOf pool j := by
  unfold seqStep
  dsimp only
  cases h : matchingOf (setBaseAt pool pr.1 pr.2) pr.1 with
  | none => exact setBaseAt_matching pool pr.1 pr.2 j
  | some j' =>
      rw [setBaseAt_matching, setBaseAt_matching]

theorem seqStep_length (pool : List Nuc) (pr : ℕ × Option Base) :
    (seqStep pool pr).length = pool.length := by
  unfold seqStep
  dsimp only
  cases h : matchingOf (setBaseAt pool pr.1 pr.2) pr.1 with
  | none => exact setBaseAt_length pool pr.1 pr.2
  | some j => rw [setBaseAt_length, setBaseAt_length]

theorem seqStep_get_untouched (pool : List Nuc) (pr : ℕ × Option Base)
    (c : ℕ) (h1 : c ≠ pr.1)
    (h2 : ∀ j, matchingOf pool pr.1 = some j → c ≠ j) :
    (seqStep pool pr).get? c = pool.get? c := by
  unfold seqStep
  dsimp only
  cases hmc : matchingOf (setBaseAt pool pr.1 pr.2) pr.1 with
  | none => exact setBaseAt_get_ne pool pr.1 pr.2 c h1
  | some j =>
      have hj : matchingOf pool pr.1 = some j := by
        rwa [setBaseAt_matching] at hmc
      rw [setBaseAt_get_ne _ j _ c (h2 j hj),
        setBaseAt_get_ne pool pr.1 pr.2 c h1]

theorem seqFold_matching (l : List (ℕ × Option Base)) :
    ∀ (pool : List Nuc) (j : ℕ),
      matchingOf (l.foldl seqStep pool) j = matchingOf pool j := by
  induction l with
  | nil => intro pool j; rfl
  | cons hd tl ih =>
      intro pool j
      rw [List.foldl_cons, ih, seqStep_matching]

theorem seqFold_untouched (l : List (ℕ × Option Base)) :
    ∀ (pool : List Nuc) (c : ℕ),
      (∀ pr ∈ l, c ≠ pr.1 ∧
        ∀ j, matchingOf pool pr.1 = some j → c ≠ j) →
      (l.foldl seqStep pool).get? c = pool.get? c := by
  induction l with
  | nil => intro pool c _; rfl
  | cons hd tl ih =>
      intro pool c h
      have hhd := h hd (List.mem_cons_self _ _)
      rw [List.foldl_cons]
      rw [ih (seqStep pool hd) c ?_]
      · exact seqStep_get_untouched pool hd c hhd.1 hhd.2
      · intro pr' hpr'
        obtain ⟨ha, hb⟩ := h pr' (List.mem_cons_of_mem _ hpr')
        exact ⟨ha, fun j hj => hb j (by rwa [seqStep_matching] at hj)⟩

theorem seqFold_spec (l : List (ℕ × Option Base)) :
    ∀ (pool : List Nuc),
      (l.map Prod.fst).Nodup →
      (∀ pr ∈ l, pr.1 < pool.length) →
      (∀ pr ∈ l, ∀ j, matchingOf pool pr.1 = some j →
        j < pool.length ∧ ∀ pr' ∈ l, j ≠ pr'.1) →
      (∀ pr ∈ l, ∀ pr' ∈ l, pr.1 ≠ pr'.1 → ∀ j j',
        matchingOf pool pr.1 = some j → matchingOf pool pr'.1 = some j' →
        j ≠ j') →
      ∀ pr ∈ l,
        baseAt (l.foldl seqStep pool) pr.1 = some pr.2 ∧
        (∀ j, matchingOf pool pr.1 = some j →
          baseAt (l.foldl seqStep pool) j = some (complementB pr.2)) := by
  induction l with
  | nil => intro pool _ _ _ _ pr hpr; cases hpr
  | cons hd tl ih =>
      intro pool hnodup hbound hmatch hdistinct pr hpr
      rw [List.map_cons] at hnodup
      obtain ⟨hnotin, hnodup'⟩ := List.nodup_cons.mp hnodup
      have hne_tl : ∀ pr' ∈ tl, hd.1 ≠ pr'.1 := by
        intro pr' hpr' he
        exact hnotin (by rw [he]; exact List.mem_map_of_mem Prod.fst hpr')
      rw [List.foldl_cons]
      rcases List.mem_cons.mp hpr with rfl | htl
      · have hlt := hbound pr (List.mem_cons_self _ _)
        obtain ⟨nuc, hnuc⟩ : ∃ nuc, pool.get? pr.1 = some nuc :=
          ⟨pool.get ⟨pr.1, hlt⟩, List.get?_eq_get hlt⟩
        constructor
        · have hstep : (seqStep pool pr).get? pr.1
              = some { nuc with base := pr.2 } := by
            unfold seqStep
            dsimp only
            cases hmc : matchingOf (setBaseAt pool pr.1 pr.2) pr.1 with
            | none => exact setBaseAt_get_self pool pr.1 pr.2 nuc hnuc
            | some j =>
                have hj : matchingOf pool pr.1 = some j := by
                  rwa [setBaseAt_matching] at hmc
                have hne : j ≠ pr.1 :=
                  (hmatch pr (List.mem_cons_self _ _) j hj).2 pr
                    (List.mem_cons_self _ _)
                rw [setBaseAt_get_ne _ j _ pr.1 (Ne.symm hne)]
                exact setBaseAt_get_self pool pr.1 pr.2 nuc hnuc
          have huntouched : (tl.foldl seqStep (seqStep pool pr)).get? pr.1
              = (seqStep pool pr).get? pr.1 := by
            apply seqFold_untouched
            intro pr' hpr'
            refine ⟨hne_tl pr' hpr', fun j hj => ?_⟩
            rw [seqStep_matching] at hj
            exact Ne.symm ((hmatch pr' (List.mem_cons_of_mem _ hpr') j
              hj).2 pr (List.mem_cons_self _ _))
          show ((tl.foldl seqStep (seqStep pool pr)).get? pr.1).map Nuc.base
            = some pr.2
          rw [huntouched, hstep]
          rfl
        · intro j hj
          obtain ⟨hjlt, hjnot⟩ := hmatch pr (List.mem_cons_self _ _) j hj
          obtain ⟨mnuc, hmnuc⟩ :
              ∃ mnuc, (setBaseAt pool pr.1 pr.2).get? j = some mnuc := by
            have : j < (setBaseAt pool pr.1 pr.2).length := by
              rw [setBaseAt_length]
              exact hjlt
            exact ⟨_, List.get?_eq_get this⟩
          have hstep : (seqStep pool pr).get? j
              = some { mnuc with base := complementB pr.2 } := by
            unfold seqStep
            dsimp only
            have hmc : matchingOf (setBaseAt pool pr.1 pr.2) pr.1 = some j := by
              rw [setBaseAt_matching]
              exact hj
            rw [hmc]
            exact setBaseAt_get_self _ j _ mnuc hmnuc
          have huntouched : (tl.foldl seqStep (seqStep pool pr)).get? j
              = (seqStep pool pr).get? j := by
            apply seqFold_untouched
            intro pr' hpr'
            refine ⟨hjnot pr' (List.mem_cons_of_mem _ hpr'), fun j' hj' => ?_⟩
            rw [seqStep_matching] at hj'
            exact hdistinct pr (List.mem_cons_self _ _) pr'
              (List.mem_cons_of_mem _ hpr') (hne_tl pr' hpr') j j' hj hj'
          show ((tl.foldl seqStep (seqStep pool pr)).get? j).map Nuc.base
            = some (complementB pr.2)
          rw [huntouched, hstep]
          rfl
      · have hres := ih (seqStep pool hd) hnodup'
          (fun pr' h' => by
            rw [seqStep_length]
            exact hbound pr' (List.mem_cons_of_mem _ h'))
          (fun pr' h' j hj => by
            rw [seqStep_matching] at hj
            obtain ⟨h1, h2⟩ := hmatch pr' (List.mem_cons_of_mem _ h') j hj
            exact ⟨by rw [seqStep_length]; exact h1,
              fun pr'' h'' => h2 pr'' (List.mem_cons_of_mem _ h'')⟩)
          (fun pr' h' pr'' h'' hne j j' hj hj' => by
            rw [seqStep_matching] at hj hj'
            exact hdistinct pr' (List.mem_cons_of_mem _ h') pr''
              (List.mem_cons_of_mem _ h'') hne j j' hj hj')
          pr htl
        exact ⟨hres.1, fun j hj => hres.2 j (by
          rw [seqStep_matching]
          exact hj)⟩

/-- Claim C10: assigning a sequence whose length differs from the
strand's nucleoside count raises `ValueError` with the pool unchanged
(the length check precedes any mutation); with matching lengths every
nucleoside's base is set from the list, and each non-None matching
nucleoside's base is set to the Watson-Crick complement. (Stated for
pools where the strand's indices are distinct and matching targets lie
outside the strand, as the engine's inter-strand matching guarantees.) -/
theorem claim_C10 (pool : List Nuc) (strand : List ℕ)
    (newSeq : List (Option Base))
    (hnodup : strand.Nodup)
    (hbound : ∀ i ∈ strand, i < pool.length)
    (hmatch : ∀ i ∈ strand, ∀ j, matchingOf pool i = some j →
      j < pool.length ∧ j ∉ strand)
    (hdistinct : ∀ i ∈ strand, ∀ i' ∈ strand, i ≠ i' → ∀ j j',
      matchingOf pool i = some j → matchingOf pool i' = some j' → j ≠ j') :
    (newSeq.length ≠ strand.length →
      setSequenceRun pool strand newSeq = (pool, some "ValueError")) ∧
    (newSeq.length = strand.length →
      (setSequenceRun pool strand newSeq).2 = none ∧
      ∀ k, k < strand.length →
        baseAt (setSequenceRun pool strand newSeq).1 (strand.getD k 0)
            = some (newSeq.getD k none) ∧
        ∀ j, matchingOf pool (strand.getD k 0) = some j →
          baseAt (setSequenceRun pool strand newSeq).1 j
              = some (complementB (newSeq.getD k none))) := by
  constructor
  · intro hne
    unfold setSequenceRun
    rw [if_neg hne]
  · intro heq
    unfold setSequenceRun
    rw [if_pos heq]
    refine ⟨rfl, fun k hk => ?_⟩
    have hzlen : (strand.zip newSeq).length = strand.length := by
      rw [List.length_zip, heq, Nat.min_self]
    have hkz : k < (strand.zip newSeq).length := by
      rw [hzlen]
      exact hk
    have hget : (strand.zip newSeq).get ⟨k, hkz⟩
        = (strand.getD k 0, newSeq.getD k none) := by
      rw [List.get_zip]
      refine congrArg₂ Prod.mk ?_ ?_
      · exact (List.getD_eq_get strand 0 hk).symm
      · exact (List.getD_eq_get newSeq none (by rw [heq]; exact hk)).symm
    have hmem : (strand.getD k 0, newSeq.getD k none) ∈ strand.zip newSeq := by
      rw [← hget]
      exact List.get_mem _ _ hkz
    have hfst : ∀ pr ∈ strand.zip newSeq, pr.1 ∈ strand := by
      intro pr hpr
      obtain ⟨a, b⟩ := pr
      exact (List.of_mem_zip hpr).1
    have hspec := seqFold_spec (strand.zip newSeq) pool
      (by rw [List.map_fst_zip strand newSeq (le_of_eq heq.symm)]; exact hnodup)
      (fun pr hpr => hbound pr.1 (hfst pr hpr))
      (fun pr hpr j hj => by
        obtain ⟨h1, h2⟩ := hmatch pr.1 (hfst pr hpr) j hj
        exact ⟨h1, fun pr' hpr' he => h2 (by rw [he]; exact hfst pr' hpr')⟩)
      (fun pr hpr pr' hpr' hne j j' hj hj' =>
        hdistinct pr.1 (hfst pr hpr) pr'.1 (hfst pr' hpr') hne j j' hj hj')
      (strand.getD k 0, newSeq.getD k none) hmem
    exact hspec

/-- Claim C10 witness: a four-nucleoside pool with a two-nucleoside
strand whose matchings point at the other two nucleosides. -/
theorem claim_C10_witness :
    (([some Base.A, some Base.C] : List (Option Base)).length
        = ([0, 1] : List ℕ).length) ∧
    baseAt (setSequenceRun
        [⟨none, some 2⟩, ⟨none, some 3⟩, ⟨none, none⟩, ⟨none, none⟩]
        [0, 1] [some Base.A, some Base.C]).1
        (([0, 1] : List ℕ).getD 0 0)
      = some (([some Base.A, some Base.C] :
          List (Option Base)).getD 0 none) := by
  have hm : ∀ i ∈ ([0, 1] : List ℕ), ∀ j,
      matchingOf [⟨none, some 2⟩, ⟨none, some 3⟩, ⟨none, none⟩,
        ⟨none, none⟩] i = some j →
      j < ([⟨none, some 2⟩, ⟨none, some 3⟩, ⟨none, none⟩,
        ⟨none, none⟩] : List Nuc).length ∧ j ∉ ([0, 1] : List ℕ) := by
    intro i hi j hj
    fin_cases hi <;> simp [matchingOf] at hj <;> subst hj <;> decide
  have hd : ∀ i ∈ ([0, 1] : List ℕ), ∀ i' ∈ ([0, 1] : List ℕ), i ≠ i' →
      ∀ j j',
      matchingOf [⟨none, some 2⟩, ⟨none, some 3⟩, ⟨none, none⟩,
        ⟨none, none⟩] i = some j →
      matchingOf [⟨none, some 2⟩, ⟨none, some 3⟩, ⟨none, none⟩,
        ⟨none, none⟩] i' = some j' → j ≠ j' := by
    intro i hi i' hi' hne j j' hj hj'
    fin_cases hi <;> fin_cases hi' <;>
      simp [matchingOf] at hj hj' <;> omega
  refine ⟨by norm_num, ?_⟩
  exact (((claim_C10
    [⟨none, some 2⟩, ⟨none, some 3⟩, ⟨none, none⟩, ⟨none, none⟩]
    [0, 1] [some Base.A, some Base.C]
    (by decide) (by decide) hm hd).2
    (by decide)).2 0 (by decide)).1

end Nano
